import Mathlib

/-!
# Verification of the `matcher` regular-expression package

This file gives a shallow embedding, in Lean, of the Go package `matcher`
(lexer `lex`/`emit`/`escape`, the infix-to-postfix converter `postfix`, the
Thompson NFA builder `post2nfa`/`patch`, and the lazy-DFA simulator
`Match`/`addstate`/`step`/`getdfastate`/`ismatch`), together with theorems
about the embedded definitions.

Modelling conventions:
* a byte is a `Nat` (the Go `byte` value); a pattern or source string is its
  byte sequence, a `List Nat`;
* Go pointers into the NFA state graph are indices into an arena
  (`List state`); the `nil` pointer of a not-yet-patched edge is
  `Option.none`;
* Go functions that can `panic` (index out of range, nil dereference) or
  `log.Fatalln` are embedded as `Option`-returning functions, `none` being
  the crashing run;
* Go slice-typed stacks that push and pop at the slice's end are embedded as
  lists; for construction stacks the top is kept at the head of the list
  (push = cons), for the operator stack of the postfix converter the Go
  layout (top at the end) is kept.
-/

/-- Token kinds, from the Go `charType` enumeration (in declaration order:
`charNil`, `charEscapeLiteral`, `charLiteral`, `charDot`, `charStar`,
`charConcat`, `charOr`). -/
inductive charType where
  | charNil
  | charEscapeLiteral
  | charLiteral
  | charDot
  | charStar
  | charConcat
  | charOr
deriving DecidableEq, Repr

/-- A token: Go `type char struct { typ charType; val byte }`. -/
structure char where
  typ : charType
  val : Nat
deriving DecidableEq, Repr

/-- NFA state kinds, Go `styp` (`match`, `split`, `single`).  The Go name
`match` is a Lean keyword, so that constructor is called `smatch` here. -/
inductive styp where
  | smatch
  | split
  | single
deriving DecidableEq, Repr

/-- An NFA state, Go `type state struct { typ styp; c char; out []*state;
lastlist int }`.  Outgoing pointers are arena indices; an unpatched (`nil`)
edge is `none`. -/
structure state where
  typ : styp
  c : char
  out : List (Option Nat)
  lastlist : Nat
deriving DecidableEq, Repr

/-- A dangling arrow, Go `type ptr struct { s *state; i int }`: state index
`s` together with the index `i` into its `out` slice. -/
structure ptr where
  s : Nat
  i : Nat
deriving DecidableEq, Repr

/-- An NFA fragment, Go `type frag struct { start *state; out []ptr }`. -/
structure frag where
  start : Nat
  out : List ptr
deriving DecidableEq, Repr

/-- Go `escape`: the fixed escape table mapping the byte after a backslash
to the byte the escaped literal matches. -/
def escape (c : Nat) : Nat :=
  if c = 48 then 0        -- '0' ↦ NUL
  else if c = 97 then 7   -- 'a' ↦ BEL
  else if c = 98 then 8   -- 'b' ↦ BS
  else if c = 116 then 9  -- 't' ↦ TAB
  else if c = 110 then 10 -- 'n' ↦ LF
  else if c = 118 then 11 -- 'v' ↦ VT
  else if c = 102 then 12 -- 'f' ↦ FF
  else if c = 114 then 13 -- 'r' ↦ CR
  else if c = 101 then 27 -- 'e' ↦ ESC
  else if c = 92 then 92  -- '\' ↦ '\'
  else c                  -- anything else passes through verbatim

/-- Go `(*lexer).emit` for a token whose value byte `v` has already been
resolved (for `charEscapeLiteral` the caller resolves `v` through `escape`;
the trailing-backslash check is likewise done by the caller, which consumes
the escaped byte).  `acc` is the lexer's `chars` slice so far; Go's
`l.top()` is its last element.  The `log.Fatalln` on an unquantifiable `*`
is embedded as `none`. -/
def emitTok (acc : List char) (t : charType) (v : Nat) : Option (List char) :=
  let top : Option char := acc.getLast?
  if t = charType.charStar ∧
      ¬ ((top.map char.typ) = some charType.charLiteral ∨
         (top.map char.typ) = some charType.charDot) then
    none
  else
    some ((if t ≠ charType.charStar ∧ t ≠ charType.charOr ∧
              (top.map char.typ) ≠ some charType.charOr then
             acc ++ [⟨charType.charConcat, 46⟩]
           else acc) ++ [⟨t, v⟩])

/-- Go `(*lexer).run`: scan the remaining bytes of the pattern, dispatching
each byte to `emit`.  A `\` consumes the following byte through `escape`;
with no following byte, `log.Fatalln` fires (embedded as `none`). -/
def lexRun : List Nat → List char → Option (List char)
  | [], acc => some acc
  | b :: rest, acc =>
    if b = 92 then
      match rest with
      | [] => none
      | e :: rest' =>
        match emitTok acc charType.charEscapeLiteral (escape e) with
        | none => none
        | some acc' => lexRun rest' acc'
    else if b = 46 then
      match emitTok acc charType.charDot b with
      | none => none
      | some acc' => lexRun rest acc'
    else if b = 42 then
      match emitTok acc charType.charStar b with
      | none => none
      | some acc' => lexRun rest acc'
    else if b = 124 then
      match emitTok acc charType.charOr b with
      | none => none
      | some acc' => lexRun rest acc'
    else
      match emitTok acc charType.charLiteral b with
      | none => none
      | some acc' => lexRun rest acc'

/-- Go `lex`: the empty pattern yields no tokens; otherwise run the lexer
and return `l.chars[1:]` (the first element of the buffer is dropped). -/
def lex (expression : List Nat) : Option (List char) :=
  if expression = [] then some []
  else (lexRun expression []).map (List.drop 1)

/-- Go `postfix`, inner loop.  `output` is the output queue, `operator` the
operator stack with its top at the END of the list, exactly as in the Go
slice (`top` reads the last element, push appends, pop drops the last
element).  After the input is exhausted the remaining operators are popped
from the end one by one, i.e. the output is extended with the reversed
stack. -/
def toRpnGo : List char → List char → List char → List char
  | [], output, operator => output ++ operator.reverse
  | c :: rest, output, operator =>
    match c.typ with
    | charType.charStar =>
      match operator.getLast? with
      | some t =>
        if t.typ = charType.charStar then
          toRpnGo rest (output ++ [t]) (operator.dropLast ++ [c])
        else toRpnGo rest output (operator ++ [c])
      | none => toRpnGo rest output (operator ++ [c])
    | charType.charConcat =>
      match operator.getLast? with
      | some t =>
        if t.typ = charType.charConcat ∨ t.typ = charType.charStar then
          toRpnGo rest (output ++ [t]) (operator.dropLast ++ [c])
        else toRpnGo rest output (operator ++ [c])
      | none => toRpnGo rest output (operator ++ [c])
    | charType.charOr =>
      match operator.getLast? with
      | some t => toRpnGo rest (output ++ [t]) (operator.dropLast ++ [c])
      | none => toRpnGo rest output (operator ++ [c])
    | _ => toRpnGo rest (output ++ [c]) operator

/-- Go `postfix`: convert a token sequence to postfix (reverse-Polish)
order.  (The Go name `postfix` is a reserved notation command in Lean, so
the function is named after its result, reverse-Polish notation.) -/
def toRpn (chars : List char) : List char :=
  toRpnGo chars [] []

/-- Write `some tgt` into edge `ei` of the state at arena index `si`.
Out-of-range writes leave the arena unchanged (they do not occur on the
arguments `patch` is actually given). -/
def setOut (arena : List state) (si ei : Nat) (tgt : Option Nat) : List state :=
  match arena.get? si with
  | none => arena
  | some s => arena.set si { s with out := s.out.set ei tgt }

/-- Go `patch`: connect every dangling arrow in `out` to the state `start`.
The Go loop pops `out` from its end, so the last arrow is written first
(the order is irrelevant to the result). -/
def patch (arena : List state) (out : List ptr) (start : Nat) : List state :=
  out.foldr (fun p a => setOut a p.s p.i (some start)) arena

/-- The zero `char` value of Go (`char{charNil, 0}`), carried by `split`
and `match` states. -/
def nilChar : char := ⟨charType.charNil, 0⟩

/-- Go `post2nfa`, main loop over the postfix tokens; `stack` is the
fragment stack with its top at the head.  A pop from an empty stack is a Go
panic, embedded as `none`.  After the loop the top fragment is popped and
its dangling arrows are patched to a freshly allocated `match` state. -/
def post2nfaGo : List char → List state → List frag → Option (Nat × List state)
  | [], arena, stack =>
    match stack with
    | [] => none
    | e :: _ =>
      let midx := arena.length
      let arena' := arena ++ [⟨styp.smatch, nilChar, [], 0⟩]
      some (e.start, patch arena' e.out midx)
  | p :: rest, arena, stack =>
    match p.typ with
    | charType.charConcat =>
      match stack with
      | e2 :: e1 :: st =>
        post2nfaGo rest (patch arena e1.out e2.start) (⟨e1.start, e2.out⟩ :: st)
      | _ => none
    | charType.charStar =>
      match stack with
      | e :: st =>
        let idx := arena.length
        let arena' := arena ++ [⟨styp.split, nilChar, [some e.start, none], 0⟩]
        post2nfaGo rest (patch arena' e.out idx) (⟨idx, [⟨idx, 1⟩]⟩ :: st)
      | _ => none
    | charType.charOr =>
      match stack with
      | e2 :: e1 :: st =>
        let idx := arena.length
        let arena' := arena ++
          [⟨styp.split, nilChar, [some e1.start, some e2.start], 0⟩]
        post2nfaGo rest arena' (⟨idx, e1.out ++ e2.out⟩ :: st)
      | _ => none
    | _ =>
      let idx := arena.length
      let arena' := arena ++ [⟨styp.single, p, [none], 0⟩]
      post2nfaGo rest arena' (⟨idx, [⟨idx, 0⟩]⟩ :: stack)

/-- Go `Post2nfa`: build the NFA from a postfix token sequence, returning
the entry state (an arena index) together with the arena it points into. -/
def post2nfa (pf : List char) : Option (Nat × List state) :=
  post2nfaGo pf [] []

/-- Go `addstate`: add a state (and, through unlabeled `split` arrows, its
epsilon-closure) to the list, stamping each visited state's `lastlist` with
`listid` so that stamped states are not revisited.  A `nil` state pointer
(`none`) is a Go nil dereference, embedded as `none`.  The Go recursion
terminates because every call either returns at the stamp guard or stamps a
previously unstamped state; `fuel` makes that measure explicit, and callers
pass `arena.length`, an upper bound on the number of unstamped states (see
`addstate_total`). -/
def addstate : Nat → List state → List Nat → Option Nat → Nat →
    Option (List state × List Nat)
  | _, _, _, none, _ => none
  | fuel, arena, list, some i, listid =>
    match arena.get? i with
    | none => none
    | some s =>
      if s.lastlist = listid then some (arena, list)
      else
        match fuel with
        | 0 => none
        | fuel' + 1 =>
          let arena' := arena.set i { s with lastlist := listid }
          if s.typ = styp.split then
            match s.out.get? 0, s.out.get? 1 with
            | some o0, some o1 =>
              match addstate fuel' arena' list o0 listid with
              | none => none
              | some (a, l) => addstate fuel' a l o1 listid
            | _, _ => none
          else some (arena', list ++ [i])

/-- Inner loop of Go `step`: walk the current state list, and for every
state whose token matches the input byte `c` (`s.typ == single && s.c.val
== c || s.c.typ == charDot`, with Go precedence) add the target of its
single outgoing arrow to the next list under the fresh generation
`listid`. -/
def stepGo : List state → List Nat → Nat → Nat → List Nat →
    Option (List Nat × List state)
  | arena, [], _, _, nlist => some (nlist, arena)
  | arena, si :: rest, c, listid, nlist =>
    match arena.get? si with
    | none => none
    | some s =>
      if (s.typ = styp.single ∧ s.c.val = c) ∨ s.c.typ = charType.charDot then
        match s.out.get? 0 with
        | none => none
        | some o =>
          match addstate arena.length arena nlist o listid with
          | none => none
          | some (a, nl) => stepGo a rest c listid nl
      else stepGo arena rest c listid nlist

/-- Go `step`: compute the next list of states for one input byte; the
generation counter is incremented once for the whole step. -/
def step (arena : List state) (list : List Nat) (c : Nat) (listid : Nat) :
    Option (List Nat × Nat × List state) :=
  (stepGo arena list c (listid + 1) []).map (fun r => (r.1, listid + 1, r.2))

/-- Go `ismatch`: does the list contain a `match` state? -/
def ismatch (arena : List state) (list : List Nat) : Bool :=
  list.any (fun i =>
    match arena.get? i with
    | some s => s.typ == styp.smatch
    | none => false)

/-- The observable outcome of one Go `Match` call: the boolean result, the
arena with whatever `lastlist` stamps the call left behind, the list of
state lists passed to `getdfastate`, and the number of `dfastate` values
allocated by `getdfastate` (cache misses). -/
structure mres where
  result : Bool
  arena : List state
  calls : List (List Nat)
  created : Nat
deriving DecidableEq, Repr

/-- The byte loop of Go `Match`.  In the Go code `cacheddfa` is keyed by
values of type `*[]*state`, and every call `getdfastate(&list)` inside one
`Match` invocation passes the address of the one local variable `list` of
that invocation, so after the initial call every lookup hits the same cache
entry and returns the same `dfastate` `d0`.  Consequently `d.next[c]`, once
set, always holds `d0`, and `d.next[c] == nil` holds exactly when byte `c`
has not been stepped yet in this invocation; `seen` records the bytes that
have been.  When `c` is in `seen` the Go loop takes `d = next` without
recomputing the list, and the final `ismatch(*d.list)` reads the current
value of the `list` variable. -/
def matchLoop : List state → List Nat → Nat → List Nat → List (List Nat) →
    List Nat → Option mres
  | arena, list, _, _, calls, [] => some ⟨ismatch arena list, arena, calls, 1⟩
  | arena, list, listid, seen, calls, c :: rest =>
    if c ∈ seen then matchLoop arena list listid seen calls rest
    else
      match step arena list c listid with
      | none => none
      | some (nl, listid', arena') =>
        matchLoop arena' nl listid' (c :: seen) (calls ++ [nl]) rest

/-- Go `Match`: reset the cache, seed the state list with the
epsilon-closure of the entry state under generation 1, create the initial
`dfastate` (the one cache miss of the call, hence `created = 1` in the
result), then run the byte loop. -/
def MatchRun (arena : List state) (start : Nat) (source : List Nat) :
    Option mres :=
  match addstate arena.length arena [] (some start) 1 with
  | none => none
  | some (arena1, list) => matchLoop arena1 list 1 [] [list] source

/-- The full pipeline of the package's `main`: `lex`, `postfix`,
`Post2nfa`, `Match`, returning the boolean verdict (and `none` where the Go
program would crash). -/
def matchPattern (p : List Nat) (source : List Nat) : Option Bool :=
  match lex p with
  | none => none
  | some toks =>
    match post2nfa (toRpn toks) with
    | none => none
    | some (st, arena) => (MatchRun arena st source).map mres.result

/-- Two consecutive `Match` calls against one compiled automaton: the
second call starts from the arena (with its `lastlist` stamps) left behind
by the first, exactly as in Go, where the states are shared heap objects. -/
def matchTwice (p s1 s2 : List Nat) : Option (Bool × Bool) :=
  match lex p with
  | none => none
  | some toks =>
    match post2nfa (toRpn toks) with
    | none => none
    | some (st, arena) =>
      match MatchRun arena st s1 with
      | none => none
      | some r1 =>
        match MatchRun r1.arena st s2 with
        | none => none
        | some r2 => some (r1.result, r2.result)

/-- Pipeline variant exposing the full `mres` of the `Match` call. -/
def pipelineRun (p : List Nat) (source : List Nat) : Option mres :=
  match lex p with
  | none => none
  | some toks =>
    match post2nfa (toRpn toks) with
    | none => none
    | some (st, arena) => MatchRun arena st source

/-! ## Reference definitions following the specification's wording

These definitions are written from the words of the specification and of
the claims (not from the Go source); they exist to be compared with the
source-derived definitions above. -/

/-- Is the previous token one that `*` may quantify, according to the Go
star check (`top.typ == charLiteral || top.typ == charDot`)? -/
def quantifiable : Option charType → Bool
  | some charType.charLiteral => true
  | some charType.charDot => true
  | _ => false

/-- Spec wording, claim C5(a): the pattern ends in an unescaped
backslash (a `\` with no following character, skipping over completed
escape pairs). -/
def specEndsInBackslash : List Nat → Bool
  | [] => false
  | b :: rest =>
    if b = 92 then
      match rest with
      | [] => true
      | _ :: r => specEndsInBackslash r
    else specEndsInBackslash rest

/-- Spec wording, claim C5(b) as amended: some `*` occurs where the
previously scanned token is absent or is not `Literal` or `Dot`; `prev` is
the kind of the previously scanned token. -/
def specHasBadStar : Option charType → List Nat → Bool
  | _, [] => false
  | prev, b :: rest =>
    if b = 92 then
      match rest with
      | [] => false
      | _ :: r => specHasBadStar (some charType.charEscapeLiteral) r
    else if b = 42 then
      !(quantifiable prev) || specHasBadStar (some charType.charStar) rest
    else if b = 46 then specHasBadStar (some charType.charDot) rest
    else if b = 124 then specHasBadStar (some charType.charOr) rest
    else specHasBadStar (some charType.charLiteral) rest

/-- Spec wording, claim C6: the pattern's own tokens in left-to-right scan
order (no concatenation markers), with the lexer's validation: a trailing
backslash or a `*` after a non-quantifiable token fails.  `prev` is the
kind of the previously scanned token. -/
def specUnits : Option charType → List Nat → Option (List char)
  | _, [] => some []
  | prev, b :: rest =>
    if b = 92 then
      match rest with
      | [] => none
      | e :: rest' =>
        (specUnits (some charType.charEscapeLiteral) rest').map
          (⟨charType.charEscapeLiteral, escape e⟩ :: ·)
    else if b = 46 then
      (specUnits (some charType.charDot) rest).map (⟨charType.charDot, b⟩ :: ·)
    else if b = 42 then
      if quantifiable prev then
        (specUnits (some charType.charStar) rest).map (⟨charType.charStar, b⟩ :: ·)
      else none
    else if b = 124 then
      (specUnits (some charType.charOr) rest).map (⟨charType.charOr, b⟩ :: ·)
    else
      (specUnits (some charType.charLiteral) rest).map (⟨charType.charLiteral, b⟩ :: ·)

/-- The concatenation-marker insertion rule of the lexer, on a token
sequence: insert `Concat` before a token unless the token being emitted is
`Star` or `Or`, or the previously emitted token (`prev`, with `none`
standing for "no token emitted yet") was `Or`.  With `prev = none` a
`Concat` IS inserted: this matches the Go `emit`, whose `top == nil` case
inserts the marker; the `[1:]` slice taken by `lex` then removes it. -/
def concatGo : Option charType → List char → List char
  | _, [] => []
  | prev, t :: rest =>
    (if t.typ = charType.charStar ∨ t.typ = charType.charOr ∨
        prev = some charType.charOr then [t]
     else [⟨charType.charConcat, 46⟩, t]) ++ concatGo (some t.typ) rest

/-- Claim C6's description of the lexer output, as amended: the scanned
tokens with `Concat` inserted before each except the first token overall,
`Star`/`Or` tokens, and tokens following `Or`; when the first scanned token
is `Or` it is dropped from the output. -/
def specLexTokens : List char → List char
  | [] => []
  | t :: rest =>
    if t.typ = charType.charOr then concatGo (some charType.charOr) rest
    else t :: concatGo (some t.typ) rest

/-- Pop-and-emit `while` the stack top is `Concat` or `Star` (claim C7's
wording for the `Concat` case): returns the popped prefix and the remaining
stack. -/
def specDrainCS : List char → List char × List char
  | [] => ([], [])
  | t :: rest =>
    if t.typ = charType.charConcat ∨ t.typ = charType.charStar then
      let r := specDrainCS rest
      (t :: r.1, r.2)
    else ([], t :: rest)

/-- Claim C7's shunting-yard description, verbatim ("pops-and-emits WHILE
the top is Concat or Star"); operator stack top at the head. -/
def specShuntWhileGo : List char → List char → List char → List char
  | [], output, operator => output ++ operator
  | c :: rest, output, operator =>
    match c.typ with
    | charType.charStar =>
      match operator with
      | t :: ops =>
        if t.typ = charType.charStar then
          specShuntWhileGo rest (output ++ [t]) (c :: ops)
        else specShuntWhileGo rest output (c :: operator)
      | [] => specShuntWhileGo rest output [c]
    | charType.charConcat =>
      let d := specDrainCS operator
      specShuntWhileGo rest (output ++ d.1) (c :: d.2)
    | charType.charOr =>
      match operator with
      | t :: ops => specShuntWhileGo rest (output ++ [t]) (c :: ops)
      | [] => specShuntWhileGo rest output [c]
    | _ => specShuntWhileGo rest (output ++ [c]) operator

/-- Claim C7's description with the `while` in the `Concat` case. -/
def specShuntWhile (l : List char) : List char :=
  specShuntWhileGo l [] []

/-- Claim C7 as amended: identical, except that for `Concat` the top is
popped-and-emitted AT MOST ONCE (if it is `Concat` or `Star`); operator
stack top at the head. -/
def specShuntOnceGo : List char → List char → List char → List char
  | [], output, operator => output ++ operator
  | c :: rest, output, operator =>
    match c.typ with
    | charType.charStar =>
      match operator with
      | t :: ops =>
        if t.typ = charType.charStar then
          specShuntOnceGo rest (output ++ [t]) (c :: ops)
        else specShuntOnceGo rest output (c :: operator)
      | [] => specShuntOnceGo rest output [c]
    | charType.charConcat =>
      match operator with
      | t :: ops =>
        if t.typ = charType.charConcat ∨ t.typ = charType.charStar then
          specShuntOnceGo rest (output ++ [t]) (c :: ops)
        else specShuntOnceGo rest output (c :: operator)
      | [] => specShuntOnceGo rest output [c]
    | charType.charOr =>
      match operator with
      | t :: ops => specShuntOnceGo rest (output ++ [t]) (c :: ops)
      | [] => specShuntOnceGo rest output [c]
    | _ => specShuntOnceGo rest (output ++ [c]) operator

/-- Claim C7 as amended, top-level. -/
def specShuntOnce (l : List char) : List char :=
  specShuntOnceGo l [] []

/-! ## Concrete evaluations of the embedded pipeline -/

/-- Claim C1: the pipeline is claimed to accept exactly the whole-string
language of the pattern.  The code violates this: for the pattern `aa` and
the source `aa` (which is in the language of `aa`) the pipeline returns
`false`.  The cause is the DFA cache: `cacheddfa` is keyed by the address
of `Match`'s single local `list` variable, so when the second `a` arrives,
`d.next['a']` is already populated (with the one node every lookup
returns) and the state list is never advanced past the first `a` state.
With pairwise-distinct source bytes every transition is freshly computed,
which is why `ab` against `ab` still yields `true`. -/
theorem c1_code_eval :
    matchPattern [97, 97] [97, 97] = some false ∧
    matchPattern [97, 98] [97, 98] = some true := by
  constructor <;> (set_option maxRecDepth 4000 in decide)

/-- Claim C2: `Match` results are claimed to be independent of the order of
calls on one compiled automaton.  The code violates this: compiling the
pattern `a` and calling `Match` with source `a` twice yields `true` then
`false`, although the same call alone yields `true`.  The first call leaves
`lastlist = 1` on the entry state; the second call starts again at
`listid = 1`, so `addstate` returns at its stamp guard immediately and the
second call's state list stays empty. -/
theorem c2_code_eval :
    matchTwice [97] [97] [97] = some (true, false) ∧
    matchPattern [97] [97] = some true := by
  constructor <;> (set_option maxRecDepth 4000 in decide)

/-- Claim C3: the DFA cache is claimed to be keyed by a canonical identity
of each closure's member set, giving one `DFANode` per distinct visited
subset.  The code violates this: running the pattern `aa` on the source
`aa`, `getdfastate` is called with the member lists `[0]` (the first `a`
state) and then `[1]` (the second `a` state) — two different member sets —
yet only ONE `dfastate` is ever allocated, and both calls return it: the
map key is the address of `Match`'s single local `list` variable, not any
identity of the member set. -/
theorem c3_code_eval :
    (pipelineRun [97, 97] [97, 97]).map (fun r => (r.calls, r.created)) =
      some ([[0], [1]], 1) ∧ ([0] : List Nat) ≠ [1] := by
  constructor <;> (set_option maxRecDepth 4000 in decide)

/-- Claim C4, counterexample: the empty pattern is accepted by `lex`
(yielding the empty token sequence), but `Post2nfa` then pops an empty
fragment stack — a Go panic (`none` here) — so the pipeline does not reach
`Match` and returns no boolean, contrary to the claim that the rest of the
pipeline terminates with a boolean for every lex-accepted pattern. -/
theorem c4_counterexample :
    lex [] = some [] ∧ post2nfa (toRpn []) = none := by
  constructor <;> decide

/-- Claim C5, counterexample: the claim says `lex` succeeds on `\a*`
(star after an escaped literal).  The code's star check only accepts
`charLiteral` and `charDot` as the preceding token, so `lex "\a*"`
(bytes `[92, 97, 42]`) fails. -/
theorem c5_counterexample : lex [92, 97, 42] = none := by decide

/-- Claim C6, counterexample: for a pattern whose first symbol is `|` the
claim says the output begins with that `Or` token.  In the code, `lex`
returns `chars[1:]`; for `|a` no `Concat` is inserted before the leading
`Or`, so the dropped first element IS the `Or` token and the output starts
with the literal `a`. -/
theorem c6_counterexample :
    lex [124, 97] = some [⟨charType.charLiteral, 97⟩] ∧
    charType.charLiteral ≠ charType.charOr := by
  constructor <;> decide

/-- Claim C7, counterexample: on the token sequence of `ab*c`
(`a · b * · c`), the code's `Concat` case pops AT MOST ONE operator, so
after popping the `Star` the older `Concat` stays on the stack and the
output is `a b * c · ·`; the claim's "pop WHILE the top is Concat or Star"
would pop that `Concat` too, giving `a b * · c ·`. -/
theorem c7_counterexample :
    toRpn [⟨charType.charLiteral, 97⟩, ⟨charType.charConcat, 46⟩,
           ⟨charType.charLiteral, 98⟩, ⟨charType.charStar, 42⟩,
           ⟨charType.charConcat, 46⟩, ⟨charType.charLiteral, 99⟩] =
      [⟨charType.charLiteral, 97⟩, ⟨charType.charLiteral, 98⟩,
       ⟨charType.charStar, 42⟩, ⟨charType.charLiteral, 99⟩,
       ⟨charType.charConcat, 46⟩, ⟨charType.charConcat, 46⟩] ∧
    specShuntWhile [⟨charType.charLiteral, 97⟩, ⟨charType.charConcat, 46⟩,
           ⟨charType.charLiteral, 98⟩, ⟨charType.charStar, 42⟩,
           ⟨charType.charConcat, 46⟩, ⟨charType.charLiteral, 99⟩] =
      [⟨charType.charLiteral, 97⟩, ⟨charType.charLiteral, 98⟩,
       ⟨charType.charStar, 42⟩, ⟨charType.charConcat, 46⟩,
       ⟨charType.charLiteral, 99⟩, ⟨charType.charConcat, 46⟩] := by
  constructor <;> decide

set_option maxRecDepth 8000 in
/-- Claim C8: the escape table maps `0 a b t n v f r e \` to
`NUL BEL BS TAB LF VT FF CR ESC \`, every other escaped byte passes through
verbatim, and an `EscapedLiteral` matches only its exact stored byte during
matching: the pipeline accepts `\.ac` against `.ac` and rejects it against
`xac` (the escaped dot does not act as a wildcard). -/
theorem c8_escape_semantics :
    (∀ b : Fin 256,
      b.val ∉ ([48, 97, 98, 116, 110, 118, 102, 114, 101, 92] : List Nat) →
      escape b.val = b.val) ∧
    escape 48 = 0 ∧ escape 97 = 7 ∧ escape 98 = 8 ∧ escape 116 = 9 ∧
    escape 110 = 10 ∧ escape 118 = 11 ∧ escape 102 = 12 ∧ escape 114 = 13 ∧
    escape 101 = 27 ∧ escape 92 = 92 ∧
    matchPattern [92, 46, 97, 99] [46, 97, 99] = some true ∧
    matchPattern [92, 46, 97, 99] [120, 97, 99] = some false := by
  refine ⟨by decide, ?_⟩
  repeat' constructor

/-- Witness for `c8_escape_semantics`: its universally quantified clause
applied at the concrete byte `x` (120), whose membership hypothesis is
discharged by computation. -/
theorem c8_escape_semantics_witness :
    (120 : Nat) ∉ ([48, 97, 98, 116, 110, 118, 102, 114, 101, 92] : List Nat) ∧
    escape 120 = 120 :=
  ⟨by decide, c8_escape_semantics.1 (120 : Fin 256) (by decide)⟩

/-! ## The postfix converter matches its amended description -/

/-- The Go `postfix` loop, which keeps the operator stack's top at the end
of the slice, agrees with the amended claim-C7 description
`specShuntOnceGo`, which keeps the top at the head. -/
theorem toRpnGo_eq_specOnce (input : List char) :
    ∀ output opSpec,
      toRpnGo input output opSpec.reverse = specShuntOnceGo input output opSpec := by
  induction input with
  | nil =>
    intro output opSpec
    simp [toRpnGo, specShuntOnceGo]
  | cons c rest ih =>
    intro output opSpec
    obtain ⟨ct, cv⟩ := c
    cases opSpec with
    | nil =>
      cases ct <;>
        simp only [toRpnGo, specShuntOnceGo, List.reverse_nil, List.getLast?,
          List.nil_append] <;>
        first
          | exact ih output [⟨_, cv⟩]
          | exact ih (output ++ [⟨_, cv⟩]) []
    | cons t ops =>
      cases ct <;>
        simp only [toRpnGo, specShuntOnceGo, List.reverse_cons,
          List.getLast?_concat, List.dropLast_concat]
      case charStar =>
        by_cases ht : t.typ = charType.charStar
        · simp only [ht, if_pos rfl]
          simpa [List.reverse_cons] using
            ih (output ++ [t]) (⟨charType.charStar, cv⟩ :: ops)
        · simp only [if_neg ht]
          have := ih output (⟨charType.charStar, cv⟩ :: t :: ops)
          simpa [List.reverse_cons] using this
      case charConcat =>
        by_cases ht : t.typ = charType.charConcat ∨ t.typ = charType.charStar
        · simp only [if_pos ht]
          simpa [List.reverse_cons] using
            ih (output ++ [t]) (⟨charType.charConcat, cv⟩ :: ops)
        · simp only [if_neg ht]
          have := ih output (⟨charType.charConcat, cv⟩ :: t :: ops)
          simpa [List.reverse_cons] using this
      case charOr =>
        simpa [List.reverse_cons] using
          ih (output ++ [t]) (⟨charType.charOr, cv⟩ :: ops)
      all_goals
        simpa [List.reverse_cons] using ih (output ++ [⟨_, cv⟩]) (t :: ops)

/-- Claim C7 as amended: `postfix` emits operands directly; for `Star` it
pops-and-emits the top only if that top is also `Star`, then pushes; for
`Concat` it pops-and-emits the top AT MOST ONCE, if it is `Concat` or
`Star`, then pushes; for `Or` it pops-and-emits the top once
unconditionally if present, then pushes; at the end the remaining
operators are popped to the output in LIFO order. -/
theorem c7_amended : ∀ l : List char, toRpn l = specShuntOnce l := by
  intro l
  have := toRpnGo_eq_specOnce l [] []
  simpa [toRpn, specShuntOnce] using this

/-! ## The lexer: relation to the specification wording -/

def lastTyp (acc : List char) : Option charType := acc.getLast?.map char.typ

theorem lastTyp_snoc (acc l : List char) (t : char) :
    lastTyp (acc ++ (l ++ [t])) = some t.typ := by
  simp [lastTyp, List.getLast?_concat, ← List.append_assoc, List.getLast?_append]

theorem emitTok_operand (acc : List char) (t : charType) (v : Nat)
    (hs : t ≠ charType.charStar) (ho : t ≠ charType.charOr) :
    emitTok acc t v = some (acc ++ concatGo (lastTyp acc) [⟨t, v⟩]) := by
  simp only [emitTok, concatGo, lastTyp]
  rw [if_neg (by tauto)]
  by_cases h : (acc.getLast?.map char.typ) = some charType.charOr
  · simp [h, hs, ho]
  · simp [h, hs, ho]

theorem emitTok_or (acc : List char) (v : Nat) :
    emitTok acc charType.charOr v =
      some (acc ++ concatGo (lastTyp acc) [⟨charType.charOr, v⟩]) := by
  simp [emitTok, concatGo, lastTyp]

theorem emitTok_star (acc : List char) (v : Nat) :
    emitTok acc charType.charStar v =
      if quantifiable (lastTyp acc) then
        some (acc ++ concatGo (lastTyp acc) [⟨charType.charStar, v⟩])
      else none := by
  simp only [emitTok, concatGo, lastTyp, quantifiable]
  rcases h : acc.getLast?.map char.typ with _ | ct
  · simp [h]
  · cases ct <;> simp [h]

theorem lastTyp_concatGoTok (acc : List char) (prev : Option charType)
    (t : charType) (v : Nat) :
    lastTyp (acc ++ concatGo prev [⟨t, v⟩]) = some t := by
  simp only [concatGo, List.append_nil]
  split
  · simp [lastTyp, List.getLast?_concat]
  · rw [show acc ++ [(⟨charType.charConcat, 46⟩ : char), ⟨t, v⟩] =
        (acc ++ [⟨charType.charConcat, 46⟩]) ++ [⟨t, v⟩] by simp]
    simp [lastTyp, List.getLast?_concat]



theorem concatGo_cons_append (prev : Option charType) (t : charType) (v : Nat)
    (us : List char) :
    concatGo prev (⟨t, v⟩ :: us) = concatGo prev [⟨t, v⟩] ++ concatGo (some t) us := by
  simp only [concatGo]
  split <;> simp

theorem master_some_case (acc : List char) (t : charType) (v : Nat)
    (rest' : List Nat) (acc' : List char)
    (hacc : acc' = acc ++ concatGo (lastTyp acc) [⟨t, v⟩])
    (ih : lexRun rest' acc' =
      (specUnits (lastTyp acc') rest').map
        (fun us => acc' ++ concatGo (lastTyp acc') us)) :
    lexRun rest' acc' =
      (specUnits (some t) rest').map
        (fun us => acc ++ concatGo (lastTyp acc) (⟨t, v⟩ :: us)) := by
  subst hacc
  rw [lastTyp_concatGoTok] at ih
  rw [ih]
  rcases specUnits (some t) rest' with _ | us
  · rfl
  · simp only [Option.map]
    conv_rhs => rw [concatGo_cons_append]
    simp [List.append_assoc]

set_option maxRecDepth 4000 in
theorem lexRun_eq_spec (p : List Nat) (acc : List char) :
    lexRun p acc =
      (specUnits (lastTyp acc) p).map
        (fun us => acc ++ concatGo (lastTyp acc) us) := by
  induction p, acc using lexRun.induct
  case case1 acc => simp [lexRun, specUnits, concatGo]
  case case2 acc => simp [lexRun, specUnits, concatGo]
  case case3 acc e rest' hnone =>
    rw [emitTok_operand acc charType.charEscapeLiteral (escape e)
      (by decide) (by decide)] at hnone
    exact absurd hnone (by simp)
  case case4 acc e rest' acc' hsome ih =>
    have hacc : acc' =
        acc ++ concatGo (lastTyp acc) [⟨charType.charEscapeLiteral, escape e⟩] := by
      rw [emitTok_operand acc charType.charEscapeLiteral (escape e)
        (by decide) (by decide)] at hsome
      exact (Option.some.injEq _ _).mp hsome.symm
    norm_num [lexRun, specUnits]
    rw [hsome]
    show lexRun rest' acc' = _
    exact master_some_case acc charType.charEscapeLiteral (escape e) rest' acc' hacc ih
  case case5 rest acc hneg hnone =>
    rw [emitTok_operand acc charType.charDot 46 (by decide) (by decide)] at hnone
    exact absurd hnone (by simp)
  case case6 rest acc acc' hneg hsome ih =>
    have hacc : acc' = acc ++ concatGo (lastTyp acc) [⟨charType.charDot, 46⟩] := by
      rw [emitTok_operand acc charType.charDot 46 (by decide) (by decide)] at hsome
      exact (Option.some.injEq _ _).mp hsome.symm
    rw [lexRun.eq_def, specUnits.eq_def]
    norm_num
    rw [hsome]
    show lexRun rest acc' = _
    exact master_some_case acc charType.charDot 46 rest acc' hacc ih
  case case7 rest acc hneg1 hneg2 hnone =>
    by_cases hq : quantifiable (lastTyp acc) = true
    · rw [emitTok_star, if_pos hq] at hnone
      exact absurd hnone (by simp)
    · clear hnone
      rw [lexRun.eq_def, specUnits.eq_def]
      norm_num
      rw [emitTok_star, if_neg hq, if_neg hq]
      rfl
  case case8 rest acc acc' hneg1 hneg2 hsome ih =>
    rw [emitTok_star] at hsome
    by_cases hq : quantifiable (lastTyp acc) = true
    · rw [if_pos hq] at hsome
      have hacc : acc' = acc ++ concatGo (lastTyp acc) [⟨charType.charStar, 42⟩] :=
        (Option.some.injEq _ _).mp hsome.symm
      rw [lexRun.eq_def, specUnits.eq_def]
      norm_num
      rw [emitTok_star, if_pos hq, if_pos hq, ← hacc]
      show lexRun rest acc' = _
      rw [Option.map_map]
      exact master_some_case acc charType.charStar 42 rest acc' hacc ih
    · rw [if_neg hq] at hsome
      exact absurd hsome (by simp)
  case case9 rest acc hneg1 hneg2 hneg3 hnone =>
    rw [emitTok_or] at hnone
    exact absurd hnone (by simp)
  case case10 rest acc acc' hneg1 hneg2 hneg3 hsome ih =>
    have hacc : acc' = acc ++ concatGo (lastTyp acc) [⟨charType.charOr, 124⟩] := by
      rw [emitTok_or] at hsome
      exact (Option.some.injEq _ _).mp hsome.symm
    rw [lexRun.eq_def, specUnits.eq_def]
    norm_num
    rw [hsome]
    show lexRun rest acc' = _
    exact master_some_case acc charType.charOr 124 rest acc' hacc ih
  case case11 b rest acc h1 h2 h3 h4 hnone =>
    rw [emitTok_operand acc charType.charLiteral b (by decide) (by decide)] at hnone
    exact absurd hnone (by simp)
  case case12 b rest acc h1 h2 h3 h4 acc' hsome ih =>
    have hacc : acc' = acc ++ concatGo (lastTyp acc) [⟨charType.charLiteral, b⟩] := by
      rw [emitTok_operand acc charType.charLiteral b (by decide) (by decide)] at hsome
      exact (Option.some.injEq _ _).mp hsome.symm
    rw [lexRun.eq_def, specUnits.eq_def]
    norm_num [h1, h2, h3, h4]
    rw [hsome]
    show lexRun rest acc' = _
    exact master_some_case acc charType.charLiteral b rest acc' hacc ih

theorem specUnits_none_iff (prev : Option charType) (p : List Nat) :
    specUnits prev p = none ↔
      (specEndsInBackslash p = true ∨ specHasBadStar prev p = true) := by
  induction prev, p using specUnits.induct
  case case1 prev => simp [specUnits, specEndsInBackslash, specHasBadStar]
  case case2 prev => simp [specUnits, specEndsInBackslash, specHasBadStar]
  case case3 prev e rest' ih1 =>
    rw [specUnits.eq_def, specEndsInBackslash.eq_def, specHasBadStar.eq_def]
    norm_num [Option.map_eq_none']
    exact ih1
  case case4 prev rest ih1 =>
    rw [specUnits.eq_def, specEndsInBackslash.eq_def, specHasBadStar.eq_def]
    norm_num [Option.map_eq_none']
    exact ih1
  case case5 prev rest h hn1 hn2 ih1 =>
    rw [specUnits.eq_def, specEndsInBackslash.eq_def, specHasBadStar.eq_def]
    norm_num [Option.map_eq_none']
    simp [ih1, h]
  case case6 prev rest h hn1 hn2 =>
    have h' : quantifiable prev = false := by
      cases hq : quantifiable prev
      · rfl
      · exact absurd hq h
    rw [specUnits.eq_def, specEndsInBackslash.eq_def, specHasBadStar.eq_def]
    norm_num [h']
  case case7 prev rest ih1 =>
    rw [specUnits.eq_def, specEndsInBackslash.eq_def, specHasBadStar.eq_def]
    norm_num [Option.map_eq_none']
    exact ih1
  case case8 prev b rest h1 h2 h3 h4 ih1 =>
    rw [specUnits.eq_def, specEndsInBackslash.eq_def, specHasBadStar.eq_def]
    norm_num [h1, h2, h3, h4, Option.map_eq_none']
    exact ih1

/-- Claim C5 as amended: `lex` fails exactly when the pattern ends in an
unescaped backslash, or some `*` occurs whose preceding token is absent or
is not `Literal` or `Dot` (so `EscapedLiteral` is NOT quantifiable and
`\a*` is rejected); in the source the failure is a `log.Fatalln` process
abort, embedded as `lex` returning no token sequence. -/
theorem c5_amended (p : List Nat) :
    lex p = none ↔
      (specEndsInBackslash p = true ∨ specHasBadStar none p = true) := by
  rcases p with _ | ⟨b, rest⟩
  · simp [lex, specEndsInBackslash, specHasBadStar]
  · rw [lex, if_neg (by simp)]
    rw [lexRun_eq_spec]
    show (Option.map _ (Option.map _ _)) = none ↔ _
    rw [Option.map_eq_none', Option.map_eq_none']
    have : lastTyp ([] : List char) = none := rfl
    rw [this]
    exact specUnits_none_iff none (b :: rest)

theorem specUnits_cons_ne_nil (prev : Option charType) (b : Nat)
    (rest : List Nat) (us : List char)
    (h : specUnits prev (b :: rest) = some us) : us ≠ [] := by
  rw [specUnits.eq_def] at h
  intro hnil
  subst hnil
  rcases rest with _ | ⟨e, r⟩ <;>
    (revert h; norm_num; split_ifs <;> simp [Option.map_eq_some'])

theorem specUnits_star_quant (prev : Option charType) (rest : List Nat)
    (v : List char) (h : specUnits prev (42 :: rest) = some v) :
    quantifiable prev = true := by
  by_cases hq : quantifiable prev = true
  · exact hq
  · rw [specUnits.eq_def] at h
    norm_num [hq] at h
    simp at h

theorem specUnits_head_typ (prev : Option charType) (b : Nat) (rest : List Nat)
    (u : char) (us : List char)
    (h : specUnits prev (b :: rest) = some (u :: us)) :
    u.typ = (if b = 92 then charType.charEscapeLiteral
      else if b = 46 then charType.charDot
      else if b = 42 then charType.charStar
      else if b = 124 then charType.charOr
      else charType.charLiteral) := by
  rw [specUnits.eq_def] at h
  by_cases h92 : b = 92
  · subst h92
    rcases rest with _ | ⟨e, r⟩
    · norm_num at h
      simp at h
    · norm_num [Option.map_eq_some'] at h
      obtain ⟨-, ha⟩ := h
      norm_num [← ha]
  · by_cases h46 : b = 46
    · subst h46
      norm_num [Option.map_eq_some'] at h
      obtain ⟨-, ha⟩ := h
      norm_num [← ha]
    · by_cases h42 : b = 42
      · subst h42
        norm_num [Option.map_eq_some'] at h
        obtain ⟨-, -, ha⟩ := h
        norm_num [← ha]
      · by_cases h124 : b = 124
        · subst h124
          norm_num [Option.map_eq_some'] at h
          obtain ⟨-, ha⟩ := h
          norm_num [← ha]
        · norm_num [h92, h46, h42, h124, Option.map_eq_some'] at h
          obtain ⟨-, ha⟩ := h
          norm_num [h92, h46, h42, h124, ← ha]

theorem concatGo_drop_one (u : char) (us : List char)
    (hs : u.typ ≠ charType.charStar) :
    (concatGo none (u :: us)).tail = specLexTokens (u :: us) := by
  rw [concatGo, specLexTokens]
  by_cases ho : u.typ = charType.charOr
  · simp [ho]
  · simp [ho, hs]

/-- Claim C6 as amended: for every pattern on which `lex` succeeds, the
output consists of the pattern's own scanned tokens in left-to-right
order, with a `Concat` inserted before each token except the first token
overall, `Star`/`Or` tokens, and tokens following an `Or` — and when the
pattern's first symbol is `|`, that leading `Or` token is dropped from the
output (it is the buffer element removed by `chars[1:]`), so the output
does NOT begin with it. -/
theorem c6_amended (p : List Nat) (out : List char) (h : lex p = some out) :
    ∃ us, specUnits none p = some us ∧ out = specLexTokens us := by
  rcases p with _ | ⟨b, rest⟩
  · refine ⟨[], rfl, ?_⟩
    simp [lex] at h
    rw [h]
    rfl
  · rw [lex, if_neg (by simp), lexRun_eq_spec] at h
    obtain ⟨us, hus, hout⟩ :
        ∃ us, specUnits none (b :: rest) = some us ∧
          out = (concatGo none us).tail := by
      rcases hX : specUnits (lastTyp []) (b :: rest) with _ | us
      · rw [hX] at h
        simp at h
      · rw [hX] at h
        simp at h
        exact ⟨us, hX, h.symm⟩
    rcases us with _ | ⟨u, us'⟩
    · exact absurd rfl (specUnits_cons_ne_nil none b rest [] hus)
    · have hstar : u.typ ≠ charType.charStar := by
        by_cases h42 : b = 42
        · subst h42
          have hq := specUnits_star_quant none rest _ hus
          simp [quantifiable] at hq
        · have ht := specUnits_head_typ none b rest u us' hus
          intro hts
          rw [hts] at ht
          by_cases h92 : b = 92 <;> by_cases h46 : b = 46 <;>
            by_cases h124 : b = 124 <;>
            simp [h92, h46, h42, h124] at ht
      refine ⟨u :: us', hus, ?_⟩
      rw [hout]
      exact concatGo_drop_one u us' hstar

theorem specUnits_congr (prev1 prev2 : Option charType) (p : List Nat)
    (h : quantifiable prev1 = quantifiable prev2) :
    specUnits prev1 p = specUnits prev2 p := by
  rcases p with _ | ⟨b, rest⟩
  · rfl
  · rw [specUnits.eq_def]
    conv_rhs => rw [specUnits.eq_def]
    simp only [h]

theorem concatGo_after_or (u : char) (us : List char)
    (hs : u.typ ≠ charType.charStar) (ho : u.typ ≠ charType.charOr) :
    concatGo (some charType.charOr) (u :: us) = (concatGo none (u :: us)).tail := by
  rw [concatGo]
  conv_rhs => rw [concatGo]
  simp [hs, ho]

/-- Claim C10: for every pattern `p` whose first character is not `|`,
`lex` applied to `'|' ++ p` returns exactly the same token sequence as
`lex p`: the leading alternation bar is silently discarded — it is the
element dropped by the `chars[1:]` slice, and because the next token is
emitted with `Or` on top of the buffer, no `Concat` marker is inserted
either. -/
theorem c10_leading_or (p : List Nat) (h : p.head? ≠ some 124) :
    lex (124 :: p) = lex p := by
  rcases p with _ | ⟨b, rest⟩
  · decide
  · have h1 : lexRun (124 :: b :: rest) [] =
        lexRun (b :: rest) [⟨charType.charOr, 124⟩] := rfl
    have hb : b ≠ 124 := by simpa using h
    rw [lex, if_neg (by simp), lex, if_neg (by simp), h1, lexRun_eq_spec,
      lexRun_eq_spec]
    have hor : lastTyp [⟨charType.charOr, 124⟩] = some charType.charOr := rfl
    have hnil : lastTyp ([] : List char) = none := rfl
    rw [hor, hnil]
    rw [specUnits_congr (some charType.charOr) none (b :: rest) (by decide)]
    rcases hX : specUnits none (b :: rest) with _ | us
    · rfl
    · rcases us with _ | ⟨u, us'⟩
      · exact absurd rfl (specUnits_cons_ne_nil none b rest [] hX)
      · have hstar : u.typ ≠ charType.charStar := by
          by_cases h42 : b = 42
          · subst h42
            have hq := specUnits_star_quant none rest _ hX
            simp [quantifiable] at hq
          · have ht := specUnits_head_typ none b rest u us' hX
            intro hts
            rw [hts] at ht
            by_cases h92 : b = 92 <;> by_cases h46 : b = 46 <;>
              simp [h92, h46, h42, hb] at ht
        have hornot : u.typ ≠ charType.charOr := by
          have ht := specUnits_head_typ none b rest u us' hX
          intro hto
          rw [hto] at ht
          by_cases h92 : b = 92 <;> by_cases h46 : b = 46 <;>
            by_cases h42 : b = 42 <;> simp [h92, h46, h42, hb] at ht
        simp only [Option.map_some']
        rw [concatGo_after_or u us' hstar hornot]
        simp

/-- Witness for `c6_amended`: the theorem applied to the concrete pattern
`ab`, whose `lex` hypothesis is discharged by computation. -/
theorem c6_amended_witness :
    ∃ us, specUnits none [97, 98] = some us ∧
      ([⟨charType.charLiteral, 97⟩, ⟨charType.charConcat, 46⟩,
        ⟨charType.charLiteral, 98⟩] : List char) = specLexTokens us :=
  c6_amended [97, 98]
    [⟨charType.charLiteral, 97⟩, ⟨charType.charConcat, 46⟩,
     ⟨charType.charLiteral, 98⟩] (by decide)

/-- Witness for `c10_leading_or`: the theorem applied to the concrete
pattern `a`, whose leading-byte hypothesis is discharged by computation. -/
theorem c10_leading_or_witness : lex [124, 97] = lex [97] :=
  c10_leading_or [97] (by decide)

/-- A state with its `lastlist` visitation stamp cleared: two arenas equal
under `List.map eraseStamp` agree on every state's kind (`typ`), stored
token (`c`) and outgoing edges (`out`), and differ at most in the stamps. -/
def eraseStamp (s : state) : state := { s with lastlist := 0 }

theorem map_eraseStamp_set (arena : List state) (i : Nat) (s : state) (id : Nat)
    (h : arena.get? i = some s) :
    (arena.set i { s with lastlist := id }).map eraseStamp =
      arena.map eraseStamp := by
  induction arena generalizing i with
  | nil => simp at h
  | cons a t ih =>
    cases i with
    | zero =>
      simp only [List.get?] at h
      injection h with h
      subst h
      simp [eraseStamp]
    | succ n =>
      simp only [List.get?] at h
      simp only [List.set, List.map]
      rw [ih n h]

theorem addstate_frame (fuel : Nat) (arena : List state) (list : List Nat)
    (o : Option Nat) (listid : Nat) :
    ∀ (arena' : List state) (list' : List Nat),
    addstate fuel arena list o listid = some (arena', list') →
    arena'.map eraseStamp = arena.map eraseStamp := by
  induction fuel, arena, list, o, listid using addstate.induct
  case case1 fuel arena list listid =>
    intro arena' list' h
    simp [addstate] at h
  case case2 fuel arena list i listid hg =>
    intro arena' list' h
    simp only [List.get?_eq_getElem?] at hg
    simp [addstate, hg] at h
  case case3 fuel arena list i s hg =>
    intro arena' list' h
    simp only [List.get?_eq_getElem?] at hg
    simp [addstate, hg] at h
    rw [← h.1]
  case case4 arena list i listid s hg hst =>
    intro arena' list' h
    simp only [List.get?_eq_getElem?] at hg
    simp [addstate, hg, hst] at h
  case case5 =>
    rename_i arena list i listid s hg hst fuel' asub hsp o0 o1 h1 h0 hnone ih1
    intro arena' list' h
    have hnone' : addstate fuel'
        (arena.set i { s with lastlist := listid }) list o0 listid = none := hnone
    have hgg := hg
    have h0' := h0
    have h1' := h1
    simp only [List.get?_eq_getElem?] at hgg h0' h1'
    simp only [hsp] at hnone'
    simp [addstate, hgg, hst, hsp, h0', h1', hnone'] at h
  case case6 =>
    rename_i arena list i listid s hg hst fuel' asub hsp o0 o1 h1 h0 a l ha ih1 ih2
    intro arena' list' h
    have ha' : addstate fuel'
        (arena.set i { s with lastlist := listid }) list o0 listid =
        some (a, l) := ha
    have hgg := hg
    have h0' := h0
    have h1' := h1
    simp only [List.get?_eq_getElem?] at hgg h0' h1'
    simp only [hsp] at ha'
    simp [addstate, hgg, hst, hsp, h0', h1', ha'] at h
    have e2 := ih2 arena' list' h
    have e1 := ih1 a l ha
    rw [e2, e1]
    exact map_eraseStamp_set arena i s listid hg
  case case7 =>
    rename_i arena list i listid s hg hst fuel' hsp hmiss
    intro arena' list' h
    have hgg := hg
    simp only [List.get?_eq_getElem?] at hgg
    rcases hh0 : s.out.get? 0 with _ | o0 <;>
      rcases hh1 : s.out.get? 1 with _ | o1
    · have hh0' := hh0
      have hh1' := hh1
      simp only [List.get?_eq_getElem?] at hh0' hh1'
      simp [addstate, hgg, hst, hsp, hh0', hh1'] at h
    · have hh0' := hh0
      have hh1' := hh1
      simp only [List.get?_eq_getElem?] at hh0' hh1'
      simp [addstate, hgg, hst, hsp, hh0', hh1'] at h
    · have hh0' := hh0
      have hh1' := hh1
      simp only [List.get?_eq_getElem?] at hh0' hh1'
      simp [addstate, hgg, hst, hsp, hh0', hh1'] at h
    · exact (hmiss o0 o1 hh0 hh1).elim
  case case8 =>
    rename_i arena list i listid s hg hst fuel' hsp
    intro arena' list' h
    have hgg := hg
    simp only [List.get?_eq_getElem?] at hgg
    simp [addstate, hgg, hst, hsp] at h
    rw [← h.1]
    exact map_eraseStamp_set arena i s listid hg

theorem stepGo_frame : ∀ (list : List Nat) (arena : List state) (c listid : Nat)
    (nlist nl' : List Nat) (arena' : List state),
    stepGo arena list c listid nlist = some (nl', arena') →
    arena'.map eraseStamp = arena.map eraseStamp := by
  intro list
  induction list with
  | nil =>
    intro arena c listid nlist nl' arena' h
    simp [stepGo] at h
    rw [← h.2]
  | cons si rest ih =>
    intro arena c listid nlist nl' arena' h
    rcases hg : arena.get? si with _ | s
    · have hg' := hg
      simp only [List.get?_eq_getElem?] at hg'
      simp [stepGo, hg'] at h
    · have hg' := hg
      simp only [List.get?_eq_getElem?] at hg'
      by_cases hc : (s.typ = styp.single ∧ s.c.val = c) ∨ s.c.typ = charType.charDot
      · rcases ho : s.out.get? 0 with _ | o
        · have ho' := ho
          simp only [List.get?_eq_getElem?] at ho'
          simp [stepGo, hg', hc, ho'] at h
        · have ho' := ho
          simp only [List.get?_eq_getElem?] at ho'
          rcases hadd : addstate arena.length arena nlist o listid with _ | ⟨a, nl⟩
          · simp [stepGo, hg', hc, ho', hadd] at h
          · simp [stepGo, hg', hc, ho', hadd] at h
            rw [ih a c listid nl nl' arena' h,
              addstate_frame arena.length arena nlist o listid a nl hadd]
      · simp [stepGo, hg', hc] at h
        exact ih arena c listid nlist nl' arena' h

theorem step_frame (arena : List state) (list : List Nat) (c listid : Nat)
    (nl : List Nat) (listid' : Nat) (arena' : List state)
    (h : step arena list c listid = some (nl, listid', arena')) :
    arena'.map eraseStamp = arena.map eraseStamp := by
  unfold step at h
  rw [Option.map_eq_some'] at h
  obtain ⟨⟨rl, ra⟩, hr, he⟩ := h
  simp at he
  rw [← he.2.2]
  exact stepGo_frame list arena c (listid + 1) [] rl ra hr

theorem matchLoop_frame : ∀ (source : List Nat) (arena : List state)
    (list : List Nat) (listid : Nat) (seen : List Nat)
    (calls : List (List Nat)) (res : mres),
    matchLoop arena list listid seen calls source = some res →
    res.arena.map eraseStamp = arena.map eraseStamp := by
  intro source
  induction source with
  | nil =>
    intro arena list listid seen calls res h
    simp [matchLoop] at h
    rw [← h]
  | cons c rest ih =>
    intro arena list listid seen calls res h
    by_cases hmem : c ∈ seen
    · simp [matchLoop, hmem] at h
      exact ih arena list listid seen calls res h
    · rcases hs : step arena list c listid with _ | ⟨nl, listid', arena2⟩
      · simp [matchLoop, hmem, hs] at h
      · simp [matchLoop, hmem, hs] at h
        rw [ih arena2 nl listid' (c :: seen) (calls ++ [nl]) res h,
          step_frame arena list c listid nl listid' arena2 hs]

/-- Claim C9: after construction, a `Match` call never mutates the
automaton graph except for the per-state generation stamp: the arena it
leaves behind agrees with the input arena on every state's kind, stored
token and outgoing edges, differing at most in the `lastlist` fields. -/
theorem c9_frame (arena : List state) (start : Nat) (source : List Nat)
    (res : mres) (h : MatchRun arena start source = some res) :
    res.arena.map eraseStamp = arena.map eraseStamp := by
  unfold MatchRun at h
  rcases ha : addstate arena.length arena [] (some start) 1 with _ | ⟨arena1, list⟩ <;>
    rw [ha] at h
  · exact absurd h (by simp)
  · rw [matchLoop_frame source arena1 list 1 [] [list] res h,
      addstate_frame arena.length arena [] (some start) 1 arena1 list ha]

/-- Witness for `c9_frame`: the two-state automaton of the pattern `a`,
matched against the source `a`, returns with stamps `1` and `2` written but
the same graph, and the theorem applies to that concrete run. -/
theorem c9_frame_witness :
    (⟨true,
      [⟨styp.single, ⟨charType.charLiteral, 97⟩, [some 1], 1⟩,
       ⟨styp.smatch, ⟨charType.charNil, 0⟩, [], 2⟩],
      [[0], [1]], 1⟩ : mres).arena.map eraseStamp =
    ([⟨styp.single, ⟨charType.charLiteral, 97⟩, [some 1], 0⟩,
      ⟨styp.smatch, ⟨charType.charNil, 0⟩, [], 0⟩] : List state).map eraseStamp :=
  c9_frame
    [⟨styp.single, ⟨charType.charLiteral, 97⟩, [some 1], 0⟩,
     ⟨styp.smatch, ⟨charType.charNil, 0⟩, [], 0⟩] 0 [97]
    ⟨true,
      [⟨styp.single, ⟨charType.charLiteral, 97⟩, [some 1], 1⟩,
       ⟨styp.smatch, ⟨charType.charNil, 0⟩, [], 2⟩],
      [[0], [1]], 1⟩ (by decide)

/-! ## Claim C4: totality of matching after a successful build -/

theorem map_set_congr {α β : Type} (f : α → β) :
    ∀ (l : List α) (i : Nat) (a b : α), l.get? i = some b → f a = f b →
    (l.set i a).map f = l.map f := by
  intro l
  induction l with
  | nil => intro i a b h hf; simp at h
  | cons x t ih =>
    intro i a b h hf
    cases i with
    | zero =>
      simp only [List.get?] at h
      injection h with h
      subst h
      simp [List.set, hf]
    | succ n =>
      simp only [List.get?] at h
      simp only [List.set, List.map]
      rw [ih n a b h hf]

theorem get?_of_map_eq {α β : Type} (f : α → β) (l l' : List α)
    (h : l'.map f = l.map f) (i : Nat) (b : α) (hb : l.get? i = some b) :
    ∃ b', l'.get? i = some b' ∧ f b' = f b := by
  have h1 : (l'.map f).get? i = (l.map f).get? i := by rw [h]
  rw [List.get?_map, List.get?_map, hb] at h1
  rcases hg : l'.get? i with _ | b'
  · rw [hg] at h1; simp at h1
  · rw [hg] at h1
    simp only [Option.map_some'] at h1
    injection h1 with h1
    exact ⟨b', rfl, h1⟩

theorem get?_lt_length {α : Type} : ∀ (l : List α) (i : Nat) (a : α),
    l.get? i = some a → i < l.length := by
  intro l
  induction l with
  | nil => intro i a h; simp at h
  | cons x t ih =>
    intro i a h
    cases i with
    | zero => simp
    | succ n =>
      simp only [List.get?] at h
      have := ih n a h
      simp only [List.length_cons]
      omega

theorem get?_set_ne' {α : Type} : ∀ (l : List α) (i j : Nat) (a : α), j ≠ i →
    (l.set i a).get? j = l.get? j := by
  intro l
  induction l with
  | nil => intro i j a h; simp
  | cons x t ih =>
    intro i j a h
    cases i with
    | zero =>
      cases j with
      | zero => exact absurd rfl h
      | succ m => simp [List.set, List.get?]
    | succ n =>
      cases j with
      | zero => simp [List.set, List.get?]
      | succ m =>
        simp only [List.set, List.get?]
        exact ih n m a (fun hh => h (by rw [hh]))

theorem get?_set_self' {α : Type} : ∀ (l : List α) (i : Nat) (a : α), i < l.length →
    (l.set i a).get? i = some a := by
  intro l
  induction l with
  | nil => intro i a h; simp at h
  | cons x t ih =>
    intro i a h
    cases i with
    | zero => simp [List.set, List.get?]
    | succ n =>
      simp only [List.set, List.get?]
      exact ih n a (by simp [List.length] at h; omega)

/-- The construction-invariant "shape" of a state: everything `patch` and
stamping leave unchanged. -/
def shape (s : state) : styp × char × Nat := (s.typ, s.c, s.out.length)

/-- The value of edge slot `p` of the arena (`none` when out of bounds). -/
def slotVal (arena : List state) (p : ptr) : Option (Option Nat) :=
  (arena.get? p.s).bind (fun s => s.out.get? p.i)

/-- The slot named by `p` exists. -/
def ptrInBounds (arena : List state) (p : ptr) : Prop :=
  ∃ s, arena.get? p.s = some s ∧ p.i < s.out.length

theorem setOut_length (arena : List state) (si ei : Nat) (t : Option Nat) :
    (setOut arena si ei t).length = arena.length := by
  cases hg : arena.get? si with
  | none => unfold setOut; rw [hg]
  | some s => unfold setOut; rw [hg]; exact List.length_set arena si _

theorem setOut_shape (arena : List state) (si ei : Nat) (t : Option Nat) :
    (setOut arena si ei t).map shape = arena.map shape := by
  cases hg : arena.get? si with
  | none => unfold setOut; rw [hg]
  | some s =>
    unfold setOut; rw [hg]
    exact map_set_congr shape arena si _ s hg (by simp [shape])

theorem setOut_slot_self (arena : List state) (si ei : Nat) (t : Option Nat)
    (s : state) (hg : arena.get? si = some s) (hei : ei < s.out.length) :
    slotVal (setOut arena si ei t) ⟨si, ei⟩ = some t := by
  unfold setOut slotVal
  rw [hg]
  have hsi : si < arena.length := get?_lt_length arena si s hg
  simp only
  rw [get?_set_self' arena si _ hsi]
  simp only [Option.some_bind]
  exact get?_set_self' s.out ei t hei

theorem setOut_slot_ne (arena : List state) (si ei : Nat) (t : Option Nat)
    (q : ptr) (hq : q ≠ ptr.mk si ei) :
    slotVal (setOut arena si ei t) q = slotVal arena q := by
  obtain ⟨qs, qi⟩ := q
  cases hg : arena.get? si with
  | none => unfold setOut; rw [hg]
  | some s =>
    unfold setOut; rw [hg]
    by_cases hs : qs = si
    · subst hs
      have hi : qi ≠ ei := by
        intro he; exact hq (by rw [he])
      have hsi : qs < arena.length := get?_lt_length arena qs s hg
      unfold slotVal
      simp only
      rw [get?_set_self' arena qs _ hsi, hg]
      simp only [Option.some_bind]
      exact get?_set_ne' s.out ei qi t hi
    · unfold slotVal
      simp only
      rw [get?_set_ne' arena si qs _ hs]

theorem patch_length (arena : List state) (out : List ptr) (t : Nat) :
    (patch arena out t).length = arena.length := by
  induction out with
  | nil => rfl
  | cons p ps ih =>
    show (setOut (patch arena ps t) p.s p.i (some t)).length = arena.length
    rw [setOut_length, ih]

theorem patch_shape (arena : List state) (out : List ptr) (t : Nat) :
    (patch arena out t).map shape = arena.map shape := by
  induction out with
  | nil => rfl
  | cons p ps ih =>
    show (setOut (patch arena ps t) p.s p.i (some t)).map shape = arena.map shape
    rw [setOut_shape, ih]

theorem patch_slot (t : Nat) : ∀ (out : List ptr) (arena : List state),
    (∀ p ∈ out, ptrInBounds arena p) → ∀ q : ptr,
    slotVal (patch arena out t) q =
      if q ∈ out then some (some t) else slotVal arena q := by
  intro out
  induction out with
  | nil => intro arena _ q; simp [patch]
  | cons p ps ih =>
    intro arena hb q
    have hps : ∀ p' ∈ ps, ptrInBounds arena p' :=
      fun p' hp' => hb p' (List.mem_cons_of_mem _ hp')
    have hpatch : patch arena (p :: ps) t = setOut (patch arena ps t) p.s p.i (some t) := rfl
    rw [hpatch]
    by_cases hq : q = p
    · subst hq
      obtain ⟨s, hg, hi⟩ := hb q (List.mem_cons_self _ _)
      obtain ⟨s', hg', hsh⟩ :=
        get?_of_map_eq shape arena (patch arena ps t) (patch_shape arena ps t) q.s s hg
      have hlen : s'.out.length = s.out.length := by
        have h2 := congrArg (fun x => x.2.2) hsh
        simpa [shape] using h2
      have hself := setOut_slot_self (patch arena ps t) q.s q.i (some t) s' hg'
        (by rw [hlen]; exact hi)
      simp only [List.mem_cons, true_or, if_pos, eq_self_iff_true]
      exact hself
    · rw [setOut_slot_ne (patch arena ps t) p.s p.i (some t) q hq]
      rw [ih arena hps q]
      simp [List.mem_cons, hq]

/-- A patched edge target is valid when it is `some j` with `j` in bounds. -/
def edgeOk (n : Nat) : Option Nat → Bool
  | some j => decide (j < n)
  | none => false

/-- During construction an edge may still dangle (`none`). -/
def edgeOpenOk (n : Nat) : Option Nat → Bool
  | some j => decide (j < n)
  | none => true

/-- Shape of a state during construction: `single` has exactly one slot,
`split` exactly two and the zero token, and no `match` state exists yet;
all non-dangling edges point into the arena. -/
def stOpen (n : Nat) (s : state) : Bool :=
  match s.typ with
  | styp.single => s.out.length == 1 && s.out.all (edgeOpenOk n)
  | styp.split => s.out.length == 2 && s.out.all (edgeOpenOk n) && s.c == nilChar
  | styp.smatch => false

/-- Shape of a state in a fully built automaton: as `stOpen`, but no edge
dangles, and the unique `match` state has no outgoing edges and the zero
token. -/
def stClosed (n : Nat) (s : state) : Bool :=
  match s.typ with
  | styp.single => s.out.length == 1 && s.out.all (edgeOk n)
  | styp.split => s.out.length == 2 && s.out.all (edgeOk n) && s.c == nilChar
  | styp.smatch => s.out == ([] : List (Option Nat)) && s.c == nilChar

/-- A fully built arena: every state well-shaped with every edge patched. -/
def arenaClosed (arena : List state) : Bool :=
  arena.all (stClosed arena.length)

theorem mem_iff_get?' {α : Type} (l : List α) (a : α) :
    a ∈ l ↔ ∃ i, l.get? i = some a := by
  induction l with
  | nil => simp
  | cons x t ih =>
    constructor
    · intro h
      rcases List.mem_cons.mp h with h | h
      · exact ⟨0, by simp [List.get?, h]⟩
      · obtain ⟨i, hi⟩ := ih.mp h
        exact ⟨i + 1, by simpa [List.get?] using hi⟩
    · rintro ⟨i, hi⟩
      cases i with
      | zero =>
        simp only [List.get?] at hi
        injection hi with hi
        exact hi ▸ List.mem_cons_self _ _
      | succ n =>
        simp only [List.get?] at hi
        exact List.mem_cons_of_mem _ (ih.mpr ⟨n, hi⟩)

theorem edgeOpenOk_mono (n m : Nat) (h : n ≤ m) (o : Option Nat)
    (ho : edgeOpenOk n o = true) : edgeOpenOk m o = true := by
  cases o with
  | none => rfl
  | some j =>
    simp only [edgeOpenOk, decide_eq_true_eq] at *
    omega

theorem stOpen_mono (n m : Nat) (h : n ≤ m) (s : state)
    (hs : stOpen n s = true) : stOpen m s = true := by
  rcases hst : s.typ with _ | _ | _ <;>
    simp only [stOpen, hst, Bool.and_eq_true, List.all_eq_true] at hs ⊢
  · exact hs
  · exact ⟨⟨hs.1.1, fun x hx => edgeOpenOk_mono n m h x (hs.1.2 x hx)⟩, hs.2⟩
  · exact ⟨hs.1, fun x hx => edgeOpenOk_mono n m h x (hs.2 x hx)⟩

theorem stOpen_out_all (n : Nat) (s : state) (hs : stOpen n s = true) :
    s.out.all (edgeOpenOk n) = true := by
  rcases hst : s.typ with _ | _ | _ <;>
    simp only [stOpen, hst, Bool.and_eq_true] at hs
  · exact absurd hs (by simp)
  · exact hs.1.2
  · exact hs.2

/-- `patch` with an in-bounds target keeps every state well-shaped for
construction. -/
theorem arenaOpen_patch (arena : List state) (out : List ptr) (t : Nat)
    (harena : ∀ s ∈ arena, stOpen arena.length s = true)
    (ht : t < arena.length)
    (hb : ∀ p ∈ out, ptrInBounds arena p) :
    ∀ s' ∈ patch arena out t, stOpen (patch arena out t).length s' = true := by
  intro s' hs'
  rw [patch_length]
  obtain ⟨si, hgel⟩ := (mem_iff_get?' _ s').mp hs'
  obtain ⟨s, hg, hsh⟩ := get?_of_map_eq shape (patch arena out t) arena
    (patch_shape arena out t).symm si s' hgel
  have hsmem : s ∈ arena := (mem_iff_get?' _ s).mpr ⟨si, hg⟩
  have hsOpen := harena s hsmem
  have htyp : s'.typ = s.typ := (congrArg (fun x => x.1) hsh).symm
  have hc : s'.c = s.c := (congrArg (fun x => x.2.1) hsh).symm
  have hol : s'.out.length = s.out.length := (congrArg (fun x => x.2.2) hsh).symm
  have hall : ∀ x ∈ s'.out, edgeOpenOk arena.length x = true := by
    intro x hx
    obtain ⟨ei, hei⟩ := (mem_iff_get?' _ x).mp hx
    have hslot : slotVal (patch arena out t) ⟨si, ei⟩ = some x := by
      have hgel' := hgel
      have hei' := hei
      simp only [List.get?_eq_getElem?] at hgel' hei'
      simp [slotVal, hgel', hei']
    rw [patch_slot t out arena hb ⟨si, ei⟩] at hslot
    by_cases hmem : (⟨si, ei⟩ : ptr) ∈ out
    · rw [if_pos hmem] at hslot
      injection hslot with hslot
      rw [← hslot]
      simpa [edgeOpenOk] using ht
    · rw [if_neg hmem] at hslot
      have hg' := hg
      simp only [List.get?_eq_getElem?] at hg'
      simp only [slotVal, List.get?_eq_getElem?, hg', Option.some_bind] at hslot
      have hsx : s.out.get? ei = some x := by
        rw [List.get?_eq_getElem?]
        exact hslot
      have hxmem : x ∈ s.out := (mem_iff_get?' _ x).mpr ⟨ei, hsx⟩
      exact (List.all_eq_true.mp (stOpen_out_all arena.length s hsOpen)) x hxmem
  rcases hst : s.typ with _ | _ | _ <;> rw [hst] at htyp <;>
    simp only [stOpen, hst, htyp, Bool.and_eq_true, List.all_eq_true, beq_iff_eq]
      at hsOpen ⊢
  · exact hsOpen
  · exact ⟨⟨by rw [hol]; exact hsOpen.1.1, hall⟩, by rw [hc]; exact hsOpen.2⟩
  · exact ⟨by rw [hol]; exact hsOpen.1, hall⟩

/-- Patching the one remaining fragment's dangling arrows to a freshly
appended `match` state closes the arena. -/
theorem arenaClosed_final (arena : List state) (e : frag)
    (harena : ∀ s ∈ arena, stOpen arena.length s = true)
    (hout : ∀ p ∈ e.out, ∃ s, arena.get? p.s = some s ∧ s.out.get? p.i = some none)
    (hcomplete : ∀ si ei s, arena.get? si = some s → s.out.get? ei = some none →
      ptr.mk si ei ∈ e.out) :
    arenaClosed
      (patch (arena ++ [⟨styp.smatch, nilChar, [], 0⟩]) e.out arena.length) = true := by
  have hb2 : ∀ p ∈ e.out,
      ptrInBounds (arena ++ [⟨styp.smatch, nilChar, [], 0⟩]) p := by
    intro p hp
    obtain ⟨s, hg, hd⟩ := hout p hp
    have hps : p.s < arena.length := get?_lt_length arena p.s s hg
    refine ⟨s, ?_, get?_lt_length s.out p.i none hd⟩
    rw [List.get?_append hps]
    exact hg
  have hlen : (patch (arena ++ [⟨styp.smatch, nilChar, [], 0⟩]) e.out
      arena.length).length = arena.length + 1 := by
    rw [patch_length, List.length_append]
    rfl
  unfold arenaClosed
  rw [List.all_eq_true]
  intro s' hs'
  rw [hlen]
  obtain ⟨si, hgel⟩ := (mem_iff_get?' _ s').mp hs'
  obtain ⟨s, hg, hsh⟩ := get?_of_map_eq shape _ (arena ++ [⟨styp.smatch, nilChar, [], 0⟩])
    (patch_shape _ e.out arena.length).symm si s' hgel
  have htyp : s'.typ = s.typ := (congrArg (fun x => x.1) hsh).symm
  have hc : s'.c = s.c := (congrArg (fun x => x.2.1) hsh).symm
  have hol : s'.out.length = s.out.length := (congrArg (fun x => x.2.2) hsh).symm
  have hsin : si < arena.length + 1 := by
    have := get?_lt_length _ si s hg
    simpa using this
  by_cases hsi : si < arena.length
  · -- an original state
    have hgold : arena.get? si = some s := by
      rw [List.get?_append hsi] at hg
      exact hg
    have hsOpen := harena s ((mem_iff_get?' _ s).mpr ⟨si, hgold⟩)
    have hall : ∀ x ∈ s'.out, edgeOk (arena.length + 1) x = true := by
      intro x hx
      obtain ⟨ei, hei⟩ := (mem_iff_get?' _ x).mp hx
      have hslot : slotVal (patch (arena ++ [⟨styp.smatch, nilChar, [], 0⟩]) e.out
          arena.length) ⟨si, ei⟩ = some x := by
        have hgel' := hgel
        have hei' := hei
        simp only [List.get?_eq_getElem?] at hgel' hei'
        simp [slotVal, hgel', hei']
      rw [patch_slot _ e.out _ hb2 ⟨si, ei⟩] at hslot
      by_cases hmem : (⟨si, ei⟩ : ptr) ∈ e.out
      · rw [if_pos hmem] at hslot
        injection hslot with hslot
        rw [← hslot]
        simp [edgeOk]
      · rw [if_neg hmem] at hslot
        have hg' := hg
        simp only [List.get?_eq_getElem?] at hg'
        simp only [slotVal, List.get?_eq_getElem?, hg', Option.some_bind] at hslot
        have hsx : s.out.get? ei = some x := by
          rw [List.get?_eq_getElem?]
          exact hslot
        rcases x with _ | j
        · exact absurd (hcomplete si ei s hgold hsx) hmem
        · have hxmem : (some j : Option Nat) ∈ s.out := (mem_iff_get?' _ _).mpr ⟨ei, hsx⟩
          have := (List.all_eq_true.mp (stOpen_out_all arena.length s hsOpen))
            (some j) hxmem
          simp only [edgeOpenOk, decide_eq_true_eq] at this
          simp only [edgeOk, decide_eq_true_eq]
          omega
    rcases hst : s.typ with _ | _ | _ <;> rw [hst] at htyp <;>
      simp only [stOpen, stClosed, hst, htyp, Bool.and_eq_true, List.all_eq_true,
        beq_iff_eq] at hsOpen ⊢
    · exact absurd hsOpen (by simp)
    · exact ⟨⟨by rw [hol]; exact hsOpen.1.1, hall⟩, by rw [hc]; exact hsOpen.2⟩
    · exact ⟨by rw [hol]; exact hsOpen.1, hall⟩
  · -- the appended match state
    have hsieq : si = arena.length := by omega
    subst hsieq
    have hgm : (arena ++ [(⟨styp.smatch, nilChar, [], 0⟩ : state)]).get? arena.length =
        some ⟨styp.smatch, nilChar, [], 0⟩ := List.get?_concat_length arena _
    rw [hgm] at hg
    injection hg with hg
    subst hg
    have hout0 : s'.out = [] := List.length_eq_zero.mp (by simpa using hol)
    simp only [stClosed, htyp]
    simp [hout0, hc]

/-! ### Token counting: lexer output has at most one surplus operand -/

/-- An operand token: anything `Post2nfa`'s `default` case turns into a
`single` state (neither `Star`, `Concat` nor `Or`). -/
def opnd (c : char) : Bool :=
  match c.typ with
  | charType.charStar => false
  | charType.charConcat => false
  | charType.charOr => false
  | _ => true

/-- A binary operator token: `Concat` or `Or` (each pops two fragments and
pushes one). -/
def binop (c : char) : Bool :=
  c.typ == charType.charConcat || c.typ == charType.charOr

theorem specShuntOnceGo_countP (f : char → Bool) : ∀ (input output operator : List char),
    (specShuntOnceGo input output operator).countP f =
      input.countP f + output.countP f + operator.countP f := by
  intro input
  induction input with
  | nil =>
    intro output operator
    simp only [specShuntOnceGo, List.countP_append, List.countP_nil]
    omega
  | cons c rest ih =>
    intro output operator
    obtain ⟨ct, cv⟩ := c
    rcases operator with _ | ⟨t, ops⟩ <;> cases ct <;>
      simp only [specShuntOnceGo] <;>
      (try split_ifs) <;>
      simp only [ih, List.countP_append, List.countP_cons, List.countP_nil] <;>
      (try split_ifs) <;>
      omega

theorem toRpn_countP (f : char → Bool) (l : List char) :
    (toRpn l).countP f = l.countP f := by
  have h : toRpnGo l [] [] = specShuntOnceGo l [] [] := by
    simpa using toRpnGo_eq_specOnce l [] []
  unfold toRpn
  rw [h, specShuntOnceGo_countP f l [] []]
  simp

theorem concatGo_count_le : ∀ (us : List char) (prev : Option charType),
    (concatGo prev us).countP opnd ≤ (concatGo prev us).countP binop +
      (if prev = some charType.charOr then 1 else 0) := by
  intro us
  induction us with
  | nil =>
    intro prev
    simp only [concatGo, List.countP_nil]
    split_ifs <;> omega
  | cons t rest ih =>
    intro prev
    have iht := ih (some t.typ)
    rcases htt : t.typ with _ | _ | _ | _ | _ | _ | _ <;>
      rw [htt] at iht <;>
      simp at iht <;>
      simp only [concatGo, htt] <;>
      (try split_ifs) <;>
      simp [List.countP_append, List.countP_cons, List.countP_nil, opnd, binop, htt] <;>
      (try split_ifs) <;>
      first
        | omega
        | simp_all
        | (simp_all; omega)

theorem concatGo_tail_le (us : List char) :
    ((concatGo none us).drop 1).countP opnd ≤
      ((concatGo none us).drop 1).countP binop + 1 := by
  cases us with
  | nil => simp [concatGo]
  | cons t rest =>
    have iht := concatGo_count_le rest (some t.typ)
    rcases htt : t.typ with _ | _ | _ | _ | _ | _ | _ <;>
      rw [htt] at iht <;>
      simp at iht <;>
      simp only [concatGo, htt] <;>
      (try split_ifs) <;>
      simp [List.countP_append, List.countP_cons, List.countP_nil, opnd, binop, htt] <;>
      (try split_ifs) <;>
      first
        | omega
        | simp_all
        | (simp_all; omega)

theorem lex_count_le (p : List Nat) (out : List char) (h : lex p = some out) :
    out.countP opnd ≤ out.countP binop + 1 := by
  by_cases hp : p = []
  · subst hp
    simp [lex] at h
    subst h
    simp
  · rw [lex, if_neg hp, lexRun_eq_spec] at h
    rcases hus : specUnits (lastTyp []) p with _ | us
    · rw [hus] at h; simp at h
    · rw [hus] at h
      simp only [Option.map_some', List.nil_append] at h
      injection h with h
      rw [← h]
      have : lastTyp ([] : List char) = none := rfl
      rw [this] at hus ⊢
      exact concatGo_tail_le us

/-! ### The construction invariant of Post2nfa -/

/-- All dangling-arrow pointers recorded on the fragment stack. -/
def allOut (stack : List frag) : List ptr := (stack.map frag.out).join

/-- Invariant of the `Post2nfa` loop: every state is construction-shaped,
every fragment start is in bounds, the recorded dangling arrows are exactly
the `none` slots of the arena, and no slot is recorded twice. -/
def consInv (arena : List state) (stack : List frag) : Prop :=
  (∀ s ∈ arena, stOpen arena.length s = true) ∧
  (∀ f ∈ stack, f.start < arena.length) ∧
  (∀ p ∈ allOut stack, slotVal arena p = some none) ∧
  (∀ q : ptr, slotVal arena q = some none → q ∈ allOut stack) ∧
  (allOut stack).Nodup

theorem allOut_cons (f : frag) (st : List frag) :
    allOut (f :: st) = f.out ++ allOut st := rfl

theorem slot_none_iff (arena : List state) (p : ptr) :
    slotVal arena p = some none ↔
      ∃ s, arena.get? p.s = some s ∧ s.out.get? p.i = some none := by
  unfold slotVal
  cases hg : arena.get? p.s with
  | none => simp
  | some s => simp [hg]

theorem ptrInBounds_of_slot (arena : List state) (p : ptr)
    (h : slotVal arena p = some none) : ptrInBounds arena p := by
  obtain ⟨s, hg, hd⟩ := (slot_none_iff arena p).mp h
  exact ⟨s, hg, get?_lt_length _ _ _ hd⟩

theorem slot_ps_lt (arena : List state) (p : ptr)
    (h : slotVal arena p = some none) : p.s < arena.length := by
  obtain ⟨s, hg, _⟩ := (slot_none_iff arena p).mp h
  exact get?_lt_length _ _ _ hg

theorem slotVal_append (arena l : List state) (p : ptr) (hps : p.s < arena.length) :
    slotVal (arena ++ l) p = slotVal arena p := by
  unfold slotVal
  rw [List.get?_append hps]

theorem get?_concat_cases {α : Type} (l : List α) (a : α) (si : Nat) (s : α)
    (h : (l ++ [a]).get? si = some s) :
    (si < l.length ∧ l.get? si = some s) ∨ (si = l.length ∧ s = a) := by
  by_cases hsi : si < l.length
  · left
    refine ⟨hsi, ?_⟩
    rw [List.get?_append hsi] at h
    exact h
  · right
    have hlen := get?_lt_length _ _ _ h
    rw [List.length_append] at hlen
    have hsieq : si = l.length := by simp at hlen; omega
    subst hsieq
    rw [List.get?_concat_length] at h
    injection h with h
    exact ⟨rfl, h.symm⟩

/-- Effect of the `default` (operand) case of `Post2nfa` on the invariant. -/
theorem consInv_push_single (arena : List state) (stack : List frag) (p : char)
    (hinv : consInv arena stack) :
    consInv (arena ++ [⟨styp.single, p, [none], 0⟩])
      (⟨arena.length, [⟨arena.length, 0⟩]⟩ :: stack) := by
  obtain ⟨h1, h2, h3, h4, h5⟩ := hinv
  have hlen : (arena ++ [(⟨styp.single, p, [none], 0⟩ : state)]).length =
      arena.length + 1 := by simp
  refine ⟨?_, ?_, ?_, ?_, ?_⟩
  · intro s hs
    rw [hlen]
    obtain ⟨si, hg⟩ := (mem_iff_get?' _ s).mp hs
    rcases get?_concat_cases arena _ si s hg with ⟨hsi, hgo⟩ | ⟨hsi, hse⟩
    · exact stOpen_mono arena.length (arena.length + 1) (by omega) s
        (h1 s ((mem_iff_get?' _ s).mpr ⟨si, hgo⟩))
    · subst hse
      simp [stOpen, edgeOpenOk]
  · intro f hf
    rw [hlen]
    rcases List.mem_cons.mp hf with hf | hf
    · subst hf; simp
    · have := h2 f hf; omega
  · intro q hq
    rw [allOut_cons] at hq
    rcases List.mem_append.mp hq with hq | hq
    · have hq1 : q = ptr.mk arena.length 0 := by simpa using hq
      subst hq1
      rw [slot_none_iff]
      exact ⟨⟨styp.single, p, [none], 0⟩, List.get?_concat_length arena _, rfl⟩
    · rw [slotVal_append arena _ q (slot_ps_lt arena q (h3 q hq))]
      exact h3 q hq
  · intro q hq
    rw [allOut_cons]
    obtain ⟨s, hg, hd⟩ := (slot_none_iff _ q).mp hq
    rcases get?_concat_cases arena _ q.s s hg with ⟨hsi, hgo⟩ | ⟨hsi, hse⟩
    · have : slotVal arena q = some none := by
        rw [slot_none_iff]; exact ⟨s, hgo, hd⟩
      exact List.mem_append.mpr (Or.inr (h4 q this))
    · subst hse
      have hqi : q.i = 0 := by
        rcases hqi : q.i with _ | m
        · rfl
        · rw [hqi] at hd; simp [List.get?] at hd
      refine List.mem_append.mpr (Or.inl ?_)
      have : q = ptr.mk arena.length 0 := by
        cases q; simp_all
      simp [this]
  · rw [allOut_cons]
    refine List.Nodup.append ?_ h5 ?_
    · simp
    · intro q hq1 hq2
      have hq1' : q = ptr.mk arena.length 0 := by simpa using hq1
      subst hq1'
      have := slot_ps_lt arena _ (h3 _ hq2)
      simp at this

/-- Effect of the `charConcat` case of `Post2nfa` on the invariant. -/
theorem consInv_concat (arena : List state) (e2 e1 : frag) (st : List frag)
    (hinv : consInv arena (e2 :: e1 :: st)) :
    consInv (patch arena e1.out e2.start) (⟨e1.start, e2.out⟩ :: st) := by
  obtain ⟨h1, h2, h3, h4, h5⟩ := hinv
  have hstart2 : e2.start < arena.length := h2 e2 (by simp)
  have hstart1 : e1.start < arena.length := h2 e1 (by simp)
  have hmem1 : ∀ p ∈ e1.out, p ∈ allOut (e2 :: e1 :: st) := by
    intro p hp
    simp [allOut_cons, List.mem_append, hp]
  have hb : ∀ p ∈ e1.out, ptrInBounds arena p :=
    fun p hp => ptrInBounds_of_slot arena p (h3 p (hmem1 p hp))
  have hplen : (patch arena e1.out e2.start).length = arena.length :=
    patch_length arena e1.out e2.start
  have hslot := patch_slot e2.start e1.out arena hb
  have hnd := h5
  rw [allOut_cons, allOut_cons, List.nodup_append] at hnd
  obtain ⟨nd2, nd1st, disj2⟩ := hnd
  rw [List.nodup_append] at nd1st
  obtain ⟨nd1, ndst, disj1⟩ := nd1st
  have hdisj2 : ∀ q ∈ e2.out, q ∉ e1.out := by
    intro q hq hq1
    exact disj2 hq (List.mem_append.mpr (Or.inl hq1))
  have hdisjst : ∀ q ∈ allOut st, q ∉ e1.out := by
    intro q hq hq1
    exact disj1 hq1 hq
  refine ⟨?_, ?_, ?_, ?_, ?_⟩
  · exact arenaOpen_patch arena e1.out e2.start h1 hstart2 hb
  · intro f hf
    rw [hplen]
    rcases List.mem_cons.mp hf with hf | hf
    · subst hf; simpa using hstart1
    · exact h2 f (by simp [hf])
  · intro q hq
    rw [allOut_cons] at hq
    have hqnot : q ∉ e1.out := by
      rcases List.mem_append.mp hq with hq | hq
      · exact hdisj2 q hq
      · exact hdisjst q hq
    rw [hslot q, if_neg hqnot]
    refine h3 q ?_
    rcases List.mem_append.mp hq with hq | hq
    · simp [allOut_cons, List.mem_append, hq]
    · simp [allOut_cons, List.mem_append, hq]
  · intro q hq
    rw [hslot q] at hq
    by_cases hqm : q ∈ e1.out
    · rw [if_pos hqm] at hq
      simp at hq
    · rw [if_neg hqm] at hq
      have := h4 q hq
      rw [allOut_cons, allOut_cons] at this
      rw [allOut_cons]
      rcases List.mem_append.mp this with hh | hh
      · exact List.mem_append.mpr (Or.inl hh)
      · rcases List.mem_append.mp hh with hh | hh
        · exact absurd hh hqm
        · exact List.mem_append.mpr (Or.inr hh)
  · rw [allOut_cons]
    rw [List.nodup_append]
    refine ⟨nd2, ndst, ?_⟩
    intro q hq hq2
    exact disj2 hq (List.mem_append.mpr (Or.inr hq2))

/-- Effect of the `charStar` case of `Post2nfa` on the invariant. -/
theorem consInv_star (arena : List state) (e : frag) (st : List frag)
    (hinv : consInv arena (e :: st)) :
    consInv
      (patch (arena ++ [⟨styp.split, nilChar, [some e.start, none], 0⟩]) e.out
        arena.length)
      (⟨arena.length, [⟨arena.length, 1⟩]⟩ :: st) := by
  obtain ⟨h1, h2, h3, h4, h5⟩ := hinv
  have hestart : e.start < arena.length := h2 e (by simp)
  have hmdl : (arena ++ [(⟨styp.split, nilChar, [some e.start, none], 0⟩ : state)]).length =
      arena.length + 1 := by simp
  have hOpenM : ∀ s ∈ arena ++ [(⟨styp.split, nilChar, [some e.start, none], 0⟩ : state)],
      stOpen (arena ++ [(⟨styp.split, nilChar, [some e.start, none], 0⟩ : state)]).length
        s = true := by
    intro s hs
    rw [hmdl]
    obtain ⟨si, hg⟩ := (mem_iff_get?' _ s).mp hs
    rcases get?_concat_cases arena _ si s hg with ⟨hsi, hgo⟩ | ⟨hsi, hse⟩
    · exact stOpen_mono arena.length (arena.length + 1) (by omega) s
        (h1 s ((mem_iff_get?' _ s).mpr ⟨si, hgo⟩))
    · subst hse
      simp [stOpen, edgeOpenOk, nilChar]
      omega
  have hout3 : ∀ p ∈ e.out, slotVal arena p = some none := by
    intro p hp
    exact h3 p (by simp [allOut_cons, List.mem_append, hp])
  have hbM : ∀ p ∈ e.out,
      ptrInBounds (arena ++ [(⟨styp.split, nilChar, [some e.start, none], 0⟩ : state)]) p := by
    intro p hp
    obtain ⟨s, hg, hi⟩ := ptrInBounds_of_slot arena p (hout3 p hp)
    refine ⟨s, ?_, hi⟩
    rw [List.get?_append (get?_lt_length _ _ _ hg)]
    exact hg
  have hps_lt : ∀ p ∈ e.out, p.s < arena.length :=
    fun p hp => slot_ps_lt arena p (hout3 p hp)
  have hslot := patch_slot arena.length e.out
    (arena ++ [(⟨styp.split, nilChar, [some e.start, none], 0⟩ : state)]) hbM
  have hplen : (patch (arena ++ [(⟨styp.split, nilChar, [some e.start, none], 0⟩ : state)])
      e.out arena.length).length = arena.length + 1 := by
    rw [patch_length, hmdl]
  have hnd := h5
  rw [allOut_cons, List.nodup_append] at hnd
  obtain ⟨nde, ndst, disje⟩ := hnd
  have hnew_ne : (ptr.mk arena.length 1) ∉ e.out := by
    intro hmem
    have := hps_lt _ hmem
    simp at this
  have hslotM_new : slotVal
      (arena ++ [(⟨styp.split, nilChar, [some e.start, none], 0⟩ : state)])
      (ptr.mk arena.length 1) = some none := by
    unfold slotVal
    rw [List.get?_concat_length]
    rfl
  refine ⟨?_, ?_, ?_, ?_, ?_⟩
  · exact arenaOpen_patch _ e.out arena.length hOpenM (by rw [hmdl]; omega) hbM
  · intro f hf
    rw [hplen]
    rcases List.mem_cons.mp hf with hf | hf
    · subst hf; simp
    · have := h2 f (by simp [hf]); omega
  · intro q hq
    rw [allOut_cons] at hq
    rcases List.mem_append.mp hq with hq | hq
    · have hq1 : q = ptr.mk arena.length 1 := by simpa using hq
      rw [hq1, hslot (ptr.mk arena.length 1), if_neg hnew_ne]
      exact hslotM_new
    · have hqnot : q ∉ e.out := fun hmem => disje hmem hq
      rw [hslot q, if_neg hqnot]
      rw [slotVal_append arena _ q (slot_ps_lt arena q (h3 q (by
        simp [allOut_cons, List.mem_append, hq])))]
      exact h3 q (by simp [allOut_cons, List.mem_append, hq])
  · intro q hq
    rw [hslot q] at hq
    by_cases hqm : q ∈ e.out
    · rw [if_pos hqm] at hq
      simp at hq
    · rw [if_neg hqm] at hq
      obtain ⟨s, hg, hd⟩ := (slot_none_iff _ q).mp hq
      rw [allOut_cons]
      rcases get?_concat_cases arena _ q.s s hg with ⟨hsi, hgo⟩ | ⟨hsi, hse⟩
      · have : slotVal arena q = some none := by
          rw [slot_none_iff]; exact ⟨s, hgo, hd⟩
        have hmem := h4 q this
        rw [allOut_cons] at hmem
        rcases List.mem_append.mp hmem with hh | hh
        · exact absurd hh hqm
        · exact List.mem_append.mpr (Or.inr hh)
      · subst hse
        have hqi : q.i = 1 := by
          rcases hqi : q.i with _ | m
          · rw [hqi] at hd; simp [List.get?] at hd
          · rcases m with _ | m2
            · rfl
            · rw [hqi] at hd; simp [List.get?] at hd
        refine List.mem_append.mpr (Or.inl ?_)
        have : q = ptr.mk arena.length 1 := by
          cases q; simp_all
        simp [this]
  · rw [allOut_cons]
    refine List.Nodup.append (by simp) ndst ?_
    intro q hq1 hq2
    have hq1' : q = ptr.mk arena.length 1 := by simpa using hq1
    subst hq1'
    have := slot_ps_lt arena (ptr.mk arena.length 1)
      (h3 (ptr.mk arena.length 1)
        (by rw [allOut_cons]; exact List.mem_append.mpr (Or.inr hq2)))
    simp at this

/-- Effect of the `charOr` case of `Post2nfa` on the invariant. -/
theorem consInv_or (arena : List state) (e2 e1 : frag) (st : List frag)
    (hinv : consInv arena (e2 :: e1 :: st)) :
    consInv (arena ++ [⟨styp.split, nilChar, [some e1.start, some e2.start], 0⟩])
      (⟨arena.length, e1.out ++ e2.out⟩ :: st) := by
  obtain ⟨h1, h2, h3, h4, h5⟩ := hinv
  have hstart2 : e2.start < arena.length := h2 e2 (by simp)
  have hstart1 : e1.start < arena.length := h2 e1 (by simp)
  have hlen : (arena ++
      [(⟨styp.split, nilChar, [some e1.start, some e2.start], 0⟩ : state)]).length =
      arena.length + 1 := by simp
  have hperm : List.Perm (allOut (e2 :: e1 :: st))
      (allOut (frag.mk arena.length (e1.out ++ e2.out) :: st)) := by
    rw [allOut_cons, allOut_cons, allOut_cons]
    have h0 : e2.out ++ (e1.out ++ allOut st) = (e2.out ++ e1.out) ++ allOut st := by
      rw [List.append_assoc]
    rw [h0]
    have h1p : List.Perm (e2.out ++ e1.out) (e1.out ++ e2.out) := List.perm_append_comm
    simpa using h1p.append_right (allOut st)
  refine ⟨?_, ?_, ?_, ?_, ?_⟩
  · intro s hs
    rw [hlen]
    obtain ⟨si, hg⟩ := (mem_iff_get?' _ s).mp hs
    rcases get?_concat_cases arena _ si s hg with ⟨hsi, hgo⟩ | ⟨hsi, hse⟩
    · exact stOpen_mono arena.length (arena.length + 1) (by omega) s
        (h1 s ((mem_iff_get?' _ s).mpr ⟨si, hgo⟩))
    · subst hse
      simp [stOpen, edgeOpenOk, nilChar]
      omega
  · intro f hf
    rw [hlen]
    rcases List.mem_cons.mp hf with hf | hf
    · subst hf; simp
    · have := h2 f (by simp [hf]); omega
  · intro q hq
    have hqold : q ∈ allOut (e2 :: e1 :: st) := hperm.mem_iff.mpr hq
    rw [slotVal_append arena _ q (slot_ps_lt arena q (h3 q hqold))]
    exact h3 q hqold
  · intro q hq
    obtain ⟨s, hg, hd⟩ := (slot_none_iff _ q).mp hq
    rcases get?_concat_cases arena _ q.s s hg with ⟨hsi, hgo⟩ | ⟨hsi, hse⟩
    · have : slotVal arena q = some none := by
        rw [slot_none_iff]; exact ⟨s, hgo, hd⟩
      exact hperm.mem_iff.mp (h4 q this)
    · subst hse
      rcases hqi : q.i with _ | m
      · rw [hqi] at hd; simp [List.get?] at hd
      · rcases m with _ | m2
        · rw [hqi] at hd; simp [List.get?] at hd
        · rw [hqi] at hd; simp [List.get?] at hd
  · exact hperm.nodup h5

/-- Main construction lemma: from an invariant-respecting configuration
whose remaining input cannot leave more than one fragment behind, a
successful `Post2nfa` run yields a fully patched arena and an in-bounds
start state. -/
theorem post2nfaGo_closed : ∀ (input : List char) (arena : List state)
    (stack : List frag) (st : Nat) (A : List state),
    consInv arena stack →
    input.countP opnd + stack.length ≤ input.countP binop + 1 →
    post2nfaGo input arena stack = some (st, A) →
    arenaClosed A = true ∧ st < A.length := by
  intro input
  induction input with
  | nil =>
    intro arena stack st A hinv hcnt h
    rcases stack with _ | ⟨e, stackrest⟩
    · simp [post2nfaGo] at h
    · have hrest : stackrest = [] := by
        rcases stackrest with _ | ⟨a, b⟩
        · rfl
        · exfalso
          simp [List.countP_nil, List.length_cons] at hcnt
      subst hrest
      simp only [post2nfaGo] at h
      rw [Option.some.injEq, Prod.mk.injEq] at h
      obtain ⟨hst, hA⟩ := h
      obtain ⟨h1, h2, h3, h4, h5⟩ := hinv
      constructor
      · rw [← hA]
        apply arenaClosed_final arena e h1
        · intro p hp
          exact (slot_none_iff arena p).mp (h3 p (by rw [allOut_cons]; simp [hp]))
        · intro si ei s0 hg hd
          have hm := h4 (ptr.mk si ei) (by rw [slot_none_iff]; exact ⟨s0, hg, hd⟩)
          rw [allOut_cons] at hm
          simpa [allOut] using hm
      · rw [← hA, ← hst, patch_length]
        have := h2 e (by simp)
        simp only [List.length_append, List.length_cons, List.length_nil]
        omega
  | cons c rest ih =>
    intro arena stack st A hinv hcnt h
    rcases htt : c.typ with _ | _ | _ | _ | _ | _ | _
    case charNil =>
      simp only [post2nfaGo, htt] at h
      refine ih _ _ st A (consInv_push_single arena stack c hinv) ?_ h
      simp only [List.countP_cons, opnd, binop, htt, List.length_cons] at hcnt ⊢
      simp at hcnt
      omega
    case charEscapeLiteral =>
      simp only [post2nfaGo, htt] at h
      refine ih _ _ st A (consInv_push_single arena stack c hinv) ?_ h
      simp only [List.countP_cons, opnd, binop, htt, List.length_cons] at hcnt ⊢
      simp at hcnt
      omega
    case charLiteral =>
      simp only [post2nfaGo, htt] at h
      refine ih _ _ st A (consInv_push_single arena stack c hinv) ?_ h
      simp only [List.countP_cons, opnd, binop, htt, List.length_cons] at hcnt ⊢
      simp at hcnt
      omega
    case charDot =>
      simp only [post2nfaGo, htt] at h
      refine ih _ _ st A (consInv_push_single arena stack c hinv) ?_ h
      simp only [List.countP_cons, opnd, binop, htt, List.length_cons] at hcnt ⊢
      simp at hcnt
      omega
    case charStar =>
      rcases stack with _ | ⟨e, st2⟩
      · simp only [post2nfaGo, htt] at h
        simp at h
      · simp only [post2nfaGo, htt] at h
        refine ih _ _ st A (consInv_star arena e st2 hinv) ?_ h
        simp only [List.countP_cons, opnd, binop, htt, List.length_cons] at hcnt ⊢
        simp at hcnt
        omega
    case charConcat =>
      rcases stack with _ | ⟨e2, stack1⟩
      · simp only [post2nfaGo, htt] at h
        simp at h
      · rcases stack1 with _ | ⟨e1, st2⟩
        · simp only [post2nfaGo, htt] at h
          simp at h
        · simp only [post2nfaGo, htt] at h
          refine ih _ _ st A (consInv_concat arena e2 e1 st2 hinv) ?_ h
          simp only [List.countP_cons, opnd, binop, htt, List.length_cons] at hcnt ⊢
          simp at hcnt
          omega
    case charOr =>
      rcases stack with _ | ⟨e2, stack1⟩
      · simp only [post2nfaGo, htt] at h
        simp at h
      · rcases stack1 with _ | ⟨e1, st2⟩
        · simp only [post2nfaGo, htt] at h
          simp at h
        · simp only [post2nfaGo, htt] at h
          refine ih _ _ st A (consInv_or arena e2 e1 st2 hinv) ?_ h
          simp only [List.countP_cons, opnd, binop, htt, List.length_cons] at hcnt ⊢
          simp at hcnt
          omega

/-- `Post2nfa` on a token sequence with at most one extra operand (true of
every lexer output in postfix order) builds a closed arena. -/
theorem post2nfa_closed (toks : List char) (st : Nat) (A : List state)
    (hcnt : toks.countP opnd ≤ toks.countP binop + 1)
    (h : post2nfa toks = some (st, A)) :
    arenaClosed A = true ∧ st < A.length := by
  refine post2nfaGo_closed toks [] [] st A ⟨?_, ?_, ?_, ?_, ?_⟩ ?_ h
  · intro s hs; simp at hs
  · intro f hf; simp at hf
  · intro p hp; simp [allOut] at hp
  · intro q hq; simp [slotVal] at hq
  · simp [allOut]
  · simpa using hcnt

/-! ### Totality of the matcher on a closed arena -/

theorem get?_of_lt {α : Type} : ∀ (l : List α) (i : Nat), i < l.length →
    ∃ a, l.get? i = some a := by
  intro l
  induction l with
  | nil => intro i h; simp at h
  | cons x t ih =>
    intro i h
    cases i with
    | zero => exact ⟨x, rfl⟩
    | succ n =>
      simp only [List.length_cons] at h
      exact ih n (by omega)

theorem arenaClosed_congr (arena arena' : List state)
    (h : arena'.map eraseStamp = arena.map eraseStamp) :
    arenaClosed arena' = arenaClosed arena := by
  have hlen : arena'.length = arena.length := by
    have h2 := congrArg List.length h
    simpa using h2
  have hst : ∀ (n : Nat) (s : state), stClosed n (eraseStamp s) = stClosed n s := by
    intro n s
    rfl
  have hone : ∀ (l : List state), l.all (stClosed arena.length) =
      (l.map eraseStamp).all (stClosed arena.length) := by
    intro l
    rw [List.all_map]
    have hfun : (stClosed arena.length ∘ eraseStamp) = stClosed arena.length :=
      funext (fun s => hst arena.length s)
    rw [hfun]
  unfold arenaClosed
  rw [hlen, hone arena', hone arena, h]

theorem countP_stamp_set : ∀ (arena : List state) (i : Nat) (s : state) (listid : Nat),
    arena.get? i = some s → ¬ s.lastlist = listid →
    (arena.set i { s with lastlist := listid }).countP
        (fun t => !(t.lastlist == listid)) + 1 =
      arena.countP (fun t => !(t.lastlist == listid)) := by
  intro arena
  induction arena with
  | nil => intro i s listid h _; simp at h
  | cons a t ih =>
    intro i s listid h hs
    cases i with
    | zero =>
      simp only [List.get?] at h
      injection h with h
      subst h
      simp [List.set, List.countP_cons, hs]
    | succ n =>
      simp only [List.get?] at h
      simp only [List.set, List.countP_cons]
      rw [← ih n s listid h hs]
      omega

theorem addstate_countP_le (fuel : Nat) (arena : List state) (list : List Nat)
    (o : Option Nat) (listid : Nat) :
    ∀ (arena' : List state) (list' : List Nat),
    addstate fuel arena list o listid = some (arena', list') →
    arena'.countP (fun t => !(t.lastlist == listid)) ≤
      arena.countP (fun t => !(t.lastlist == listid)) := by
  induction fuel, arena, list, o, listid using addstate.induct
  case case1 fuel arena list listid =>
    intro arena' list' h
    simp [addstate] at h
  case case2 fuel arena list i listid hg =>
    intro arena' list' h
    simp only [List.get?_eq_getElem?] at hg
    simp [addstate, hg] at h
  case case3 fuel arena list i s hg =>
    intro arena' list' h
    simp only [List.get?_eq_getElem?] at hg
    simp [addstate, hg] at h
    rw [← h.1]
  case case4 arena list i listid s hg hst =>
    intro arena' list' h
    simp only [List.get?_eq_getElem?] at hg
    simp [addstate, hg, hst] at h
  case case5 =>
    rename_i arena list i listid s hg hst fuel' asub hsp o0 o1 h1 h0 hnone ih1
    intro arena' list' h
    have hnone' : addstate fuel'
        (arena.set i { s with lastlist := listid }) list o0 listid = none := hnone
    have hgg := hg
    have h0' := h0
    have h1' := h1
    simp only [List.get?_eq_getElem?] at hgg h0' h1'
    simp only [hsp] at hnone'
    simp [addstate, hgg, hst, hsp, h0', h1', hnone'] at h
  case case6 =>
    rename_i arena list i listid s hg hst fuel' asub hsp o0 o1 h1 h0 a l ha ih1 ih2
    intro arena' list' h
    have ha' : addstate fuel'
        (arena.set i { s with lastlist := listid }) list o0 listid =
        some (a, l) := ha
    have hgg := hg
    have h0' := h0
    have h1' := h1
    simp only [List.get?_eq_getElem?] at hgg h0' h1'
    simp only [hsp] at ha'
    simp [addstate, hgg, hst, hsp, h0', h1', ha'] at h
    have e2 := ih2 arena' list' h
    have e1 : a.countP (fun t => !(t.lastlist == listid)) ≤
        (arena.set i { s with lastlist := listid }).countP
          (fun t => !(t.lastlist == listid)) := ih1 a l ha
    have e0 := countP_stamp_set arena i s listid hg hst
    omega
  case case7 =>
    rename_i arena list i listid s hg hst fuel' hsp hmiss
    intro arena' list' h
    have hgg := hg
    simp only [List.get?_eq_getElem?] at hgg
    rcases hh0 : s.out.get? 0 with _ | o0 <;>
      rcases hh1 : s.out.get? 1 with _ | o1
    · have hh0' := hh0
      have hh1' := hh1
      simp only [List.get?_eq_getElem?] at hh0' hh1'
      simp [addstate, hgg, hst, hsp, hh0', hh1'] at h
    · have hh0' := hh0
      have hh1' := hh1
      simp only [List.get?_eq_getElem?] at hh0' hh1'
      simp [addstate, hgg, hst, hsp, hh0', hh1'] at h
    · have hh0' := hh0
      have hh1' := hh1
      simp only [List.get?_eq_getElem?] at hh0' hh1'
      simp [addstate, hgg, hst, hsp, hh0', hh1'] at h
    · exact (hmiss o0 o1 hh0 hh1).elim
  case case8 =>
    rename_i arena list i listid s hg hst fuel' hsp
    intro arena' list' h
    have hgg := hg
    simp only [List.get?_eq_getElem?] at hgg
    simp [addstate, hgg, hst, hsp] at h
    have e0 := countP_stamp_set arena i s listid hg hst
    rw [← h.1]
    omega

theorem stClosed_split_out (n : Nat) (s : state) (hcl : stClosed n s = true)
    (hsp : s.typ = styp.split) :
    ∃ j0 j1, s.out = [some j0, some j1] ∧ j0 < n ∧ j1 < n := by
  simp only [stClosed, hsp, Bool.and_eq_true, beq_iff_eq, List.all_eq_true] at hcl
  obtain ⟨⟨hlen2, hall⟩, _⟩ := hcl
  obtain ⟨x0, x1, hout⟩ := List.length_eq_two.mp hlen2
  rcases x0 with _ | j0
  · have := hall none (by rw [hout]; simp)
    simp [edgeOk] at this
  rcases x1 with _ | j1
  · have := hall none (by rw [hout]; simp)
    simp [edgeOk] at this
  refine ⟨j0, j1, hout, ?_, ?_⟩
  · have := hall (some j0) (by rw [hout]; simp)
    simpa [edgeOk] using this
  · have := hall (some j1) (by rw [hout]; simp)
    simpa [edgeOk] using this

theorem stClosed_single_out (n : Nat) (s : state) (hcl : stClosed n s = true)
    (hsp : s.typ = styp.single) :
    ∃ j, s.out = [some j] ∧ j < n := by
  simp only [stClosed, hsp, Bool.and_eq_true, beq_iff_eq, List.all_eq_true] at hcl
  obtain ⟨hlen1, hall⟩ := hcl
  obtain ⟨x0, hout⟩ := List.length_eq_one.mp hlen1
  rcases x0 with _ | j0
  · have := hall none (by rw [hout]; simp)
    simp [edgeOk] at this
  refine ⟨j0, hout, ?_⟩
  have := hall (some j0) (by rw [hout]; simp)
  simpa [edgeOk] using this

theorem stClosed_nonsingle_c (n : Nat) (s : state) (hcl : stClosed n s = true)
    (hsp : ¬ s.typ = styp.single) : s.c = nilChar := by
  rcases hst : s.typ with _ | _ | _
  · simp only [stClosed, hst, Bool.and_eq_true, beq_iff_eq] at hcl
    exact hcl.2
  · simp only [stClosed, hst, Bool.and_eq_true, beq_iff_eq] at hcl
    exact hcl.2
  · exact absurd hst hsp

theorem addstate_total : ∀ (fuel : Nat) (arena : List state) (list : List Nat)
    (i listid : Nat),
    arenaClosed arena = true → i < arena.length →
    (∀ x ∈ list, x < arena.length) →
    arena.countP (fun t => !(t.lastlist == listid)) ≤ fuel →
    ∃ a l, addstate fuel arena list (some i) listid = some (a, l) ∧
      a.length = arena.length ∧ arenaClosed a = true ∧ (∀ x ∈ l, x < a.length) := by
  intro fuel
  induction fuel with
  | zero =>
    intro arena list i listid hcl hi hlst hcnt
    obtain ⟨s, hg⟩ := get?_of_lt arena i hi
    have hst : s.lastlist = listid := by
      have h0 : arena.countP (fun t => !(t.lastlist == listid)) = 0 := by omega
      have h1 := List.countP_eq_zero.mp h0 s ((mem_iff_get?' _ s).mpr ⟨i, hg⟩)
      simpa using h1
    refine ⟨arena, list, ?_, rfl, hcl, hlst⟩
    have hg' := hg
    simp only [List.get?_eq_getElem?] at hg'
    simp [addstate, hg', hst]
  | succ fuel ih =>
    intro arena list i listid hcl hi hlst hcnt
    obtain ⟨s, hg⟩ := get?_of_lt arena i hi
    have hg' := hg
    simp only [List.get?_eq_getElem?] at hg'
    by_cases hst : s.lastlist = listid
    · refine ⟨arena, list, ?_, rfl, hcl, hlst⟩
      simp [addstate, hg', hst]
    · have hcnt1 : (arena.set i { s with lastlist := listid }).countP
          (fun t => !(t.lastlist == listid)) ≤ fuel := by
        have := countP_stamp_set arena i s listid hg hst
        omega
      have hframe_set := map_eraseStamp_set arena i s listid hg
      have hclset : arenaClosed (arena.set i { s with lastlist := listid }) = true := by
        rw [arenaClosed_congr _ _ hframe_set]
        exact hcl
      have hlenset : (arena.set i { s with lastlist := listid }).length = arena.length :=
        List.length_set arena i _
      have hstc : stClosed arena.length s = true :=
        List.all_eq_true.mp hcl s ((mem_iff_get?' _ s).mpr ⟨i, hg⟩)
      by_cases hsp : s.typ = styp.split
      · obtain ⟨j0, j1, hout, hj0, hj1⟩ := stClosed_split_out arena.length s hstc hsp
        obtain ⟨a, l, ha, halen, hacl, halst⟩ :=
          ih (arena.set i { s with lastlist := listid }) list j0 listid hclset
            (by rw [hlenset]; exact hj0)
            (fun x hx => by rw [hlenset]; exact hlst x hx) hcnt1
        have hcnta : a.countP (fun t => !(t.lastlist == listid)) ≤ fuel := by
          have := addstate_countP_le fuel (arena.set i { s with lastlist := listid })
            list (some j0) listid a l ha
          omega
        obtain ⟨a2, l2, ha2, ha2len, ha2cl, ha2lst⟩ := ih a l j1 listid hacl
          (by rw [halen, hlenset]; exact hj1) halst hcnta
        refine ⟨a2, l2, ?_, by rw [ha2len, halen, hlenset], ha2cl, ha2lst⟩
        have ha' := ha
        simp only [hsp, hout] at ha'
        simp [addstate, hg', hst, hsp, hout, ha', ha2]
      · refine ⟨arena.set i { s with lastlist := listid }, list ++ [i], ?_,
          hlenset, hclset, ?_⟩
        · simp [addstate, hg', hst, hsp]
        · intro x hx
          rcases List.mem_append.mp hx with hx | hx
          · rw [hlenset]; exact hlst x hx
          · rw [hlenset]
            have hxi : x = i := by simpa using hx
            subst hxi
            exact hi

theorem stepGo_total : ∀ (list : List Nat) (arena : List state) (c listid : Nat)
    (nlist : List Nat),
    arenaClosed arena = true →
    (∀ si ∈ list, si < arena.length) →
    (∀ x ∈ nlist, x < arena.length) →
    ∃ nl a, stepGo arena list c listid nlist = some (nl, a) ∧
      a.length = arena.length ∧ arenaClosed a = true ∧ (∀ x ∈ nl, x < a.length) := by
  intro list
  induction list with
  | nil =>
    intro arena c listid nlist hcl _ hnl
    exact ⟨nlist, arena, rfl, rfl, hcl, hnl⟩
  | cons si rest ihl =>
    intro arena c listid nlist hcl hlst hnl
    have hsi : si < arena.length := hlst si (by simp)
    obtain ⟨s, hg⟩ := get?_of_lt arena si hsi
    have hg' := hg
    simp only [List.get?_eq_getElem?] at hg'
    have hstc : stClosed arena.length s = true :=
      List.all_eq_true.mp hcl s ((mem_iff_get?' _ s).mpr ⟨si, hg⟩)
    by_cases hcond : (s.typ = styp.single ∧ s.c.val = c) ∨ s.c.typ = charType.charDot
    · have hsing : s.typ = styp.single := by
        by_cases hq : s.typ = styp.single
        · exact hq
        · have hcnil := stClosed_nonsingle_c arena.length s hstc hq
          rcases hcond with ⟨h, _⟩ | h
          · exact absurd h hq
          · rw [hcnil] at h
            simp [nilChar] at h
      obtain ⟨j, hout, hj⟩ := stClosed_single_out arena.length s hstc hsing
      obtain ⟨a, l, ha, halen, hacl, halst⟩ := addstate_total arena.length arena nlist j
        listid hcl hj hnl (List.countP_le_length _)
      obtain ⟨nl2, a2, ha2, ha2len, ha2cl, ha2lst⟩ := ihl a c listid l hacl
        (fun x hx => by rw [halen]; exact hlst x (by simp [hx])) halst
      refine ⟨nl2, a2, ?_, by rw [ha2len, halen], ha2cl, ha2lst⟩
      simp [stepGo, hg', hcond, hout, ha, ha2]
    · obtain ⟨nl2, a2, ha2, ha2len, ha2cl, ha2lst⟩ := ihl arena c listid nlist hcl
        (fun x hx => hlst x (by simp [hx])) hnl
      refine ⟨nl2, a2, ?_, ha2len, ha2cl, ha2lst⟩
      simp [stepGo, hg', hcond, ha2]

theorem matchLoop_total : ∀ (source : List Nat) (arena : List state) (list : List Nat)
    (listid : Nat) (seen : List Nat) (calls : List (List Nat)),
    arenaClosed arena = true → (∀ x ∈ list, x < arena.length) →
    ∃ res, matchLoop arena list listid seen calls source = some res := by
  intro source
  induction source with
  | nil =>
    intro arena list listid seen calls _ _
    exact ⟨⟨ismatch arena list, arena, calls, 1⟩, rfl⟩
  | cons c rest ihs =>
    intro arena list listid seen calls hcl hlst
    by_cases hmem : c ∈ seen
    · obtain ⟨res, hr⟩ := ihs arena list listid seen calls hcl hlst
      exact ⟨res, by simp [matchLoop, hmem, hr]⟩
    · obtain ⟨nl, a, ha, halen, hacl, halst⟩ := stepGo_total list arena c (listid + 1) []
        hcl hlst (by simp)
      obtain ⟨res, hr⟩ := ihs a nl (listid + 1) (c :: seen) (calls ++ [nl]) hacl halst
      refine ⟨res, ?_⟩
      have hstep : step arena list c listid = some (nl, listid + 1, a) := by
        simp [step, ha]
      simp [matchLoop, hmem, hstep, hr]

theorem MatchRun_total (arena : List state) (start : Nat) (source : List Nat)
    (hcl : arenaClosed arena = true) (hstart : start < arena.length) :
    ∃ res, MatchRun arena start source = some res := by
  obtain ⟨a, l, ha, halen, hacl, halst⟩ := addstate_total arena.length arena [] start 1
    hcl hstart (by simp) (List.countP_le_length _)
  obtain ⟨res, hr⟩ := matchLoop_total source a l 1 [] [l] hacl halst
  exact ⟨res, by simp [MatchRun, ha, hr]⟩

/-- Claim C4 as amended: for every pattern accepted by `lex` and every
finite source, if the build (`postfix` followed by `Post2nfa`) succeeds
then `Match` terminates and returns a result; the epsilon-closure
traversal terminates because a state whose stamp already equals the
current generation is never revisited, so the explicit fuel
`arena.length` always suffices.  (The original claim also asserted this
for the empty pattern, on which the build itself panics, see
`c4_counterexample`.) -/
theorem c4_amended (p : List Nat) (toks : List char) (st : Nat)
    (arena : List state) (source : List Nat)
    (h1 : lex p = some toks) (h2 : post2nfa (toRpn toks) = some (st, arena)) :
    ∃ res, MatchRun arena st source = some res := by
  have hcnt : (toRpn toks).countP opnd ≤ (toRpn toks).countP binop + 1 := by
    rw [toRpn_countP, toRpn_countP]
    exact lex_count_le p toks h1
  obtain ⟨hcl, hstart⟩ := post2nfa_closed (toRpn toks) st arena hcnt h2
  exact MatchRun_total arena st source hcl hstart

/-- Witness for `c4_amended`: the pattern `a` compiles to the two-state
automaton below, and the theorem yields termination of `Match` on the
source `a`. -/
theorem c4_amended_witness :
    ∃ res, MatchRun
      [⟨styp.single, ⟨charType.charLiteral, 97⟩, [some 1], 0⟩,
       ⟨styp.smatch, ⟨charType.charNil, 0⟩, [], 0⟩] 0 [97] = some res :=
  c4_amended [97] [⟨charType.charLiteral, 97⟩] 0
    [⟨styp.single, ⟨charType.charLiteral, 97⟩, [some 1], 0⟩,
     ⟨styp.smatch, ⟨charType.charNil, 0⟩, [], 0⟩] [97] (by decide) (by decide)
